import Mathlib

/-!
Verification development for the Draft-KV LSM storage engine.

Bytes are modelled as `List Nat` whose elements are below 256 when they come
from an encoder.  Machine integers (`u64`/`usize`) are modelled as `Nat` with
an explicit `% 2^64` at the points where the source performs wrapping
arithmetic or a byte-level encode.  Fallible operations (Rust `unwrap`,
`panic!`, out-of-bounds slicing) are modelled with `Option` or
`Except String`.
-/

namespace DraftKV

/-- From `src/utils.rs`, `to_u64`: little-endian interpretation of a byte
slice, padding missing high bytes with zero.  Callers always pass at most 8
bytes. -/
def toU64 (bytes : List Nat) : Nat :=
  bytes.foldr (fun b acc => b + 256 * acc) 0

/-- From `src/utils.rs`, `to_usize`: identical to `to_u64` on this 64-bit
target. -/
def toUsize (bytes : List Nat) : Nat :=
  toU64 bytes

/-- Little-endian byte expansion to a fixed width, modelling
`u64::to_le_bytes` (with `width = 8`). -/
def natLeBytes : Nat → Nat → List Nat
  | 0, _ => []
  | k + 1, n => n % 256 :: natLeBytes k (n / 256)

/-- `u64::to_le_bytes` / `usize::to_le_bytes` on this 64-bit target. -/
def u64ToLeBytes (n : Nat) : List Nat :=
  natLeBytes 8 n

/-! ## Internal keys (`src/key.rs`) -/

/-- `InternalKey`: a user key plus the 64-bit tail `(seq_num << 8) | op_type`. -/
structure InternalKey where
  user_key : List Nat
  tail : Nat
deriving DecidableEq

instance : Inhabited InternalKey := ⟨⟨[], 0⟩⟩

/-- `InternalKey::new`: `tail = seq_num << 8 | (op_type as u64)`, wrapping
64-bit arithmetic; the `op_type` argument is a `u8`. -/
def InternalKey.new (u : List Nat) (s o : Nat) : InternalKey :=
  ⟨u, (s * 256 + o % 256) % 2 ^ 64⟩

/-- `InternalKey::get_type`: `(tail & 0xff) as u8`. -/
def InternalKey.getType (k : InternalKey) : Nat :=
  k.tail % 256

/-- The sequence-number component `tail >> 8` of an internal key. -/
def InternalKey.seqOf (k : InternalKey) : Nat :=
  k.tail / 256

/-- `InternalKey::encode_to`: user key bytes followed by the little-endian
tail. -/
def InternalKey.encode_to (k : InternalKey) : List Nat :=
  k.user_key ++ u64ToLeBytes k.tail

/-- `InternalKey::decode_from`: all but the trailing 8 bytes are the user
key, the trailing 8 bytes the tail.  A slice shorter than 8 bytes makes the
source panic by index underflow; modelled as `none`. -/
def InternalKey.decode_from (bytes : List Nat) : Option InternalKey :=
  if bytes.length < 8 then none
  else some ⟨bytes.take (bytes.length - 8), toU64 (bytes.drop (bytes.length - 8))⟩

/-- `Ord for Vec<u8>`: element-wise comparison, then by length. -/
def bytesCmp : List Nat → List Nat → Ordering
  | [], [] => .eq
  | [], _ :: _ => .lt
  | _ :: _, [] => .gt
  | a :: as, b :: bs =>
    match compare a b with
    | .eq => bytesCmp as bs
    | o => o

/-- `Ord for InternalKey`: user key lexicographic ascending; on ties the
larger `tail >> 8` (sequence number) compares *smaller*. -/
def ikCmp (a b : InternalKey) : Ordering :=
  match bytesCmp a.user_key b.user_key with
  | .gt => .gt
  | .lt => .lt
  | .eq =>
    let sa := a.tail / 256
    let sb := b.tail / 256
    if sa > sb then .lt else if sa = sb then .eq else .gt

/-- `PartialEq for InternalKey`: equal user keys and equal `tail >> 8`; the
op type byte is ignored. -/
def ikBeq (a b : InternalKey) : Bool :=
  a.user_key == b.user_key && a.tail / 256 == b.tail / 256

/-- Rust `a <= b` derived from `Ord`. -/
def ikLe (a b : InternalKey) : Bool :=
  match ikCmp a b with
  | .gt => false
  | _ => true

/-- Rust `a >= b` derived from `Ord`. -/
def ikGe (a b : InternalKey) : Bool :=
  match ikCmp a b with
  | .lt => false
  | _ => true

/-! ## Look-up keys (`src/key.rs`) -/

/-- `LookUpKey`: a length-prefixed internal key. -/
structure LookUpKey where
  key_len : Nat
  internal_key : InternalKey
deriving DecidableEq

instance : Inhabited LookUpKey := ⟨⟨0, default⟩⟩

/-- `LookUpKey::new`: the stored length is `user_key.len() + 8` cast to
`u64`. -/
def LookUpKey.new (ik : InternalKey) : LookUpKey :=
  ⟨(ik.user_key.length + 8) % 2 ^ 64, ik⟩

/-- `LookUpKey::encode_to`. -/
def LookUpKey.encode_to (k : LookUpKey) : List Nat :=
  u64ToLeBytes k.key_len ++ k.internal_key.encode_to

/-- `LookUpKey::decode_from_bytes`: reads the 8-byte length then that many
bytes of internal key, returning the advanced offset.  Out-of-bounds slicing
(a source panic) is modelled as `none`. -/
def LookUpKey.decode_from_bytes (bytes : List Nat) (off : Nat) :
    Option (LookUpKey × Nat) :=
  if off + 8 ≤ bytes.length then
    let keyLen := toU64 ((bytes.drop off).take 8)
    if off + 8 + keyLen ≤ bytes.length then
      match InternalKey.decode_from ((bytes.drop (off + 8)).take keyLen) with
      | some ik => some (⟨keyLen, ik⟩, off + 8 + keyLen)
      | none => none
    else none
  else none

/-- `LookUpKey::get_user_key`. -/
def LookUpKey.getUserKey (k : LookUpKey) : List Nat :=
  k.internal_key.user_key

/-- `LookUpKey::get_seq_num`: `tail >> 8`. -/
def LookUpKey.getSeqNum (k : LookUpKey) : Nat :=
  k.internal_key.tail / 256

/-- `LookUpKey::get_type`. -/
def LookUpKey.getType (k : LookUpKey) : Nat :=
  k.internal_key.getType

/-- `Ord for LookUpKey` delegates to the internal key. -/
def lukCmp (a b : LookUpKey) : Ordering :=
  ikCmp a.internal_key b.internal_key

/-- `PartialEq for LookUpKey` delegates to the internal key. -/
def lukBeq (a b : LookUpKey) : Bool :=
  ikBeq a.internal_key b.internal_key

def lukLe (a b : LookUpKey) : Bool :=
  match lukCmp a b with
  | .gt => false
  | _ => true

def lukGe (a b : LookUpKey) : Bool :=
  match lukCmp a b with
  | .lt => false
  | _ => true

/-! ## Write-ahead log records (`src/wal.rs`)

The WAL file is modelled by its decoded record list: `Log::read` returns the
full in-order record sequence, and `Log::write` appends one record. -/

/-- `LogEntry`: `entry_type` 0 put, 1 delete, 2 tx-put, 3 tx-delete,
4 tx-begin, 5 tx-commit, 6 tx-abort. -/
structure LogEntry where
  entry_type : Nat
  key : List Nat
  value : List Nat
  seq_num : Nat
deriving DecidableEq

/-! ## Memtable (`src/memtable.rs`)

The skip map `SkipMap<InternalKey, Vec<u8>>` is modelled as an association
list kept in ascending `ikCmp` order — exactly the map's iteration order. -/

/-- `SkipMap::insert`: ordered insertion; when an equal key (same user key
and sequence number, op type ignored) is already present, only the value is
replaced and the originally stored key survives. -/
def skipInsert (l : List (InternalKey × List Nat)) (k : InternalKey)
    (v : List Nat) : List (InternalKey × List Nat) :=
  match l with
  | [] => [(k, v)]
  | (k₀, v₀) :: rest =>
    match ikCmp k k₀ with
    | .lt => (k, v) :: (k₀, v₀) :: rest
    | .eq => (k₀, v) :: rest
    | .gt => (k₀, v₀) :: skipInsert rest k v

/-- `MemTable`: the ordered map, the optional WAL writer (modelled by the
record list of its log file), and the running byte-size estimate. -/
structure MemTable where
  inner : List (InternalKey × List Nat)
  writerLog : Option (List LogEntry)
  size : Nat
deriving DecidableEq

instance : Inhabited MemTable := ⟨⟨[], none, 0⟩⟩

/-- `MemTable::new`. -/
def MemTable.empty : MemTable := ⟨[], none, 0⟩

/-- `MemTable::insert_inner`: install a put (op type 0) or tx-put (op type
2) internal key; no WAL interaction. -/
def MemTable.insert_inner (mt : MemTable) (key value : List Nat)
    (seqNum : Nat) (isTx : Bool) : MemTable :=
  let ik := if isTx then InternalKey.new key seqNum 2
            else InternalKey.new key seqNum 0
  { mt with inner := skipInsert mt.inner ik value,
            size := mt.size + 8 + key.length + value.length }

/-- `MemTable::delete_inner`: install a tombstone (op type 1 or 3) with an
empty value. -/
def MemTable.delete_inner (mt : MemTable) (key : List Nat) (seqNum : Nat)
    (isTx : Bool) : MemTable :=
  let ik := if isTx then InternalKey.new key seqNum 3
            else InternalKey.new key seqNum 1
  { mt with inner := skipInsert mt.inner ik [],
            size := mt.size + 8 + key.length }

/-- Append a record through the WAL writer; the source `unwrap`s a missing
writer, modelled as `none`. -/
def MemTable.writeLog (mt : MemTable) (e : LogEntry) : Option MemTable :=
  match mt.writerLog with
  | none => none
  | some w => some { mt with writerLog := some (w ++ [e]) }

/-- `MemTable::insert`: append a put / tx-put WAL record, then mutate the
map. -/
def MemTable.insert (mt : MemTable) (key value : List Nat) (seqNum : Nat)
    (isTx : Bool) : Option MemTable :=
  (mt.writeLog ⟨if isTx then 2 else 0, key, value, seqNum⟩).map
    (fun mt₁ => mt₁.insert_inner key value seqNum isTx)

/-- `MemTable::delete`: append a del / tx-del WAL record, then install the
tombstone. -/
def MemTable.delete (mt : MemTable) (key : List Nat) (seqNum : Nat)
    (isTx : Bool) : Option MemTable :=
  (mt.writeLog ⟨if isTx then 3 else 1, key, [], seqNum⟩).map
    (fun mt₁ => mt₁.delete_inner key seqNum isTx)

/-- `MemTable::begin_tx`: append a type-4 marker. -/
def MemTable.beginTx (mt : MemTable) (seqNum : Nat) : Option MemTable :=
  mt.writeLog ⟨4, [], [], seqNum⟩

/-- `MemTable::commit_tx`: append a type-5 marker. -/
def MemTable.commitTx (mt : MemTable) (seqNum : Nat) : Option MemTable :=
  mt.writeLog ⟨5, [], [], seqNum⟩

/-- `MemTable::search`: probe with `InternalKey::new(key, seq_num, 1)` and
take the first map entry that is `>=` the probe and has the same user key;
op types 0/2 yield `some (some value)`, 1/3 yield `some none`. -/
def MemTable.search (mt : MemTable) (key : List Nat) (seqNum : Nat) :
    Option (Option (List Nat)) :=
  let ik := InternalKey.new key seqNum 1
  (mt.inner.find? (fun kv => ikGe kv.1 ik && kv.1.user_key == key)).map
    (fun kv => if kv.1.getType == 0 || kv.1.getType == 2
               then some kv.2 else none)

/-! ### Recovery (`MemTable::recover`) -/

/-- The transaction replay buffer `HashMap<u64, Vec<LogEntry>>`, modelled as
an association list. -/
def TransMap : Type := List (Nat × List LogEntry)

instance : DecidableEq TransMap := by
  unfold TransMap
  infer_instance

def transGet (t : TransMap) (k : Nat) : Option (List LogEntry) :=
  (t.find? (fun kv => kv.1 == k)).map (·.2)

def transInsert (t : TransMap) (k : Nat) (v : List LogEntry) : TransMap :=
  (k, v) :: t.filter (fun kv => kv.1 ≠ k)

def transRemove (t : TransMap) (k : Nat) : TransMap :=
  t.filter (fun kv => kv.1 ≠ k)

/-- One step of the replay loop in `MemTable::recover`.  Types 0/1 apply
directly and bump the running maximum; types 2/3 are buffered under their
transaction sequence number (a missing buffer is a source panic → `none`);
type 4 creates the buffer; type 5 materialises it (missing → panic); type 6
discards it; any other type panics. -/
def recoverStep (st : MemTable × TransMap × Nat) (e : LogEntry) :
    Option (MemTable × TransMap × Nat) :=
  let (mt, tm, maxSeq) := st
  match e.entry_type with
  | 0 => some (mt.insert_inner e.key e.value e.seq_num false, tm,
               max maxSeq e.seq_num)
  | 1 => some (mt.delete_inner e.key e.seq_num false, tm,
               max maxSeq e.seq_num)
  | 2 =>
    match transGet tm e.seq_num with
    | none => none
    | some buf => some (mt, transInsert tm e.seq_num (buf ++ [e]), maxSeq)
  | 3 =>
    match transGet tm e.seq_num with
    | none => none
    | some buf => some (mt, transInsert tm e.seq_num (buf ++ [e]), maxSeq)
  | 4 => some (mt, transInsert tm e.seq_num [], maxSeq)
  | 5 =>
    match transGet tm e.seq_num with
    | none => none
    | some buf =>
      let mt₁ := buf.foldl (fun acc entry =>
        if entry.entry_type == 2
        then acc.insert_inner entry.key entry.value entry.seq_num true
        else acc.delete_inner entry.key entry.seq_num true) mt
      some (mt₁, transRemove tm e.seq_num, maxSeq)
  | 6 => some (mt, transRemove tm e.seq_num, maxSeq)
  | _ => none

/-- `MemTable::recover`: replay the log entries, attach the log as the
writer, and return the tracked maximum sequence number. -/
def MemTable.recover (mt : MemTable) (entries : List LogEntry)
    (trans : TransMap) : Option (MemTable × TransMap × Nat) :=
  (entries.foldlM recoverStep (mt, trans, 0)).map
    (fun (mt₁, tm₁, maxSeq) =>
      ({ mt₁ with writerLog := some entries }, tm₁, maxSeq))

/-! ## SST tables (`src/sst.rs`)

An SST file is modelled by its byte contents (`file : List Nat`); the
in-memory `Table` keeps the footer, decoded index block and cached min/max
keys exactly as the source does.  `read_exact_at` becomes a bounds-checked
slice of the byte list. -/

/-- The 48-byte SST footer. -/
structure Footer where
  level : Nat
  min_key_addr : Nat
  max_key_addr : Nat
  last_seq_num : Nat
  meta_index_block_addr : Nat
  index_block_addr : Nat
  foot_addr : Nat
deriving DecidableEq

instance : Inhabited Footer := ⟨⟨0, 0, 0, 0, 0, 0, 0⟩⟩

/-- `Footer::encode_to` (the `foot_addr` field is not encoded). -/
def Footer.encode_to (f : Footer) : List Nat :=
  u64ToLeBytes f.level ++ u64ToLeBytes f.min_key_addr ++
  u64ToLeBytes f.max_key_addr ++ u64ToLeBytes f.last_seq_num ++
  u64ToLeBytes f.meta_index_block_addr ++ u64ToLeBytes f.index_block_addr

/-- A data-block entry `(look_up_key, value_len, value)`. -/
structure DataBlockEntry where
  look_up_key : LookUpKey
  value : List Nat
deriving DecidableEq

/-- `DataBlockEntry::encode_to`. -/
def DataBlockEntry.encode_to (e : DataBlockEntry) : List Nat :=
  e.look_up_key.encode_to ++ u64ToLeBytes e.value.length ++ e.value

/-- `DataBlockEntry::decode_from`: decode at `offset`, returning the entry
and the advanced offset; out-of-bounds reads (source panics) are `none`. -/
def DataBlockEntry.decode_from (bytes : List Nat) (off : Nat) :
    Option (DataBlockEntry × Nat) :=
  match LookUpKey.decode_from_bytes bytes off with
  | none => none
  | some (luk, off₁) =>
    if off₁ + 8 ≤ bytes.length then
      let valueLen := toU64 ((bytes.drop off₁).take 8)
      if off₁ + 8 + valueLen ≤ bytes.length then
        some (⟨luk, (bytes.drop (off₁ + 8)).take valueLen⟩, off₁ + 8 + valueLen)
      else none
    else none

/-- An index-block entry `(max_look_up_key, block_offset, block_length)`. -/
structure IndexBlockEntry where
  max_key : LookUpKey
  offset : Nat
  length : Nat
deriving DecidableEq

instance : Inhabited IndexBlockEntry := ⟨⟨default, 0, 0⟩⟩

/-- `IndexBlockEntry::encode_to`. -/
def IndexBlockEntry.encode_to (e : IndexBlockEntry) : List Nat :=
  e.max_key.encode_to ++ u64ToLeBytes e.offset ++ u64ToLeBytes e.length

/-- `File::read_exact_at`: read exactly `len` bytes at `off`; a short read
is an error in the source (`unwrap` on `read_exact_at`). -/
def readExactAt (file : List Nat) (off len : Nat) : Except String (List Nat) :=
  if off + len ≤ file.length then .ok ((file.drop off).take len)
  else .error "read_exact_at"

deriving instance DecidableEq for Except

/-- `Table`: file name, file bytes, footer, decoded index block, cached
min/max look-up keys. -/
structure Table where
  file_name : List Nat
  file : List Nat
  footer : Footer
  index_block : List IndexBlockEntry
  min_key : LookUpKey
  max_key : LookUpKey
deriving DecidableEq

instance : Inhabited Table :=
  ⟨⟨[], [], default, [], default, default⟩⟩

/-- The builder loop state of `Table::new`: output buffer, emitted index
entries, current data-block buffer, running maximum sequence number. -/
structure BuildSt where
  buf : List Nat
  index : List IndexBlockEntry
  dataBlock : List Nat
  lastSeqNum : Nat

/-- One iteration of the builder loop in `Table::new`: serialize the entry
into the current data block; if the block now exceeds `block_size`, emit it
at the current buffer offset and record an index entry keyed by the entry
just written. -/
def buildStep (blockSize : Nat) (st : BuildSt) (kv : LookUpKey × List Nat) :
    BuildSt :=
  let lastSeqNum := max kv.1.getSeqNum st.lastSeqNum
  let dataBlock := st.dataBlock ++ DataBlockEntry.encode_to ⟨kv.1, kv.2⟩
  if dataBlock.length > blockSize then
    { buf := st.buf ++ dataBlock,
      index := st.index ++ [⟨kv.1, st.buf.length, dataBlock.length⟩],
      dataBlock := [],
      lastSeqNum := lastSeqNum }
  else
    { st with dataBlock := dataBlock, lastSeqNum := lastSeqNum }

/-- `Table::new`: build the data blocks, append the index block, the cached
min/max keys and the footer, and return the table over the written bytes.
The source `unwrap`s `data.first()`/`data.last()`, so an empty stream is a
panic (`none`). -/
def Table.new (fileName : List Nat) (data : List (LookUpKey × List Nat))
    (level blockSize : Nat) : Option Table :=
  match data.head? with
  | none => none
  | some first =>
    match data.getLast? with
    | none => none
    | some last =>
      let minKey := first.1
      let maxKey := last.1
      let st := data.foldl (buildStep blockSize)
        ⟨[], [], [], 0⟩
      let indexBlockAddr := st.buf.length
      let metaIndexBlockAddr := indexBlockAddr
      let buf₁ := st.buf ++ (st.index.map IndexBlockEntry.encode_to).flatten
      let minKeyAddr := buf₁.length
      let buf₂ := buf₁ ++ minKey.encode_to
      let maxKeyAddr := buf₂.length
      let buf₃ := buf₂ ++ maxKey.encode_to
      let footAddr := buf₃.length
      let footer : Footer :=
        ⟨level, minKeyAddr, maxKeyAddr, st.lastSeqNum,
         metaIndexBlockAddr, indexBlockAddr, footAddr⟩
      some ⟨fileName, buf₃ ++ footer.encode_to, footer, st.index,
            minKey, maxKey⟩

/-- The deterministic core-library binary search
(`slice::binary_search_by_key` over the index block by `max_key`),
implemented exactly as in the Rust standard library; returns the matching
or insertion index (the source collapses `Ok`/`Err` to the index). -/
def binarySearchIdx (idx : List IndexBlockEntry) (probe : LookUpKey) : Nat :=
  go idx.length 0 idx.length (idx.length + 1)
where
  go (size left right : Nat) : Nat → Nat
    | 0 => left
    | fuel + 1 =>
      if left < right then
        let mid := left + size / 2
        match (idx.getD mid default).max_key, probe with
        | a, b =>
          match lukCmp a b with
          | .lt => go (right - (mid + 1)) (mid + 1) right fuel
          | .gt => go (mid - left) left mid fuel
          | .eq => mid
      else left

/-- The scan loop of `Table::search` over one data block: decode entries in
order; the first entry `>=` the probe with the probe's user key decides the
result by op type — 0 yields a value, 1 yields a tombstone, anything else
is the source's `panic!("invalid look_up_key")`. -/
def searchScan (block : List Nat) (probe : LookUpKey) (key : List Nat)
    (off : Nat) : Nat → Except String (Option (Option (List Nat)))
  | 0 => .error "fuel"
  | fuel + 1 =>
    if off < block.length then
      match DataBlockEntry.decode_from block off with
      | none => .error "decode out of bounds"
      | some (e, off₁) =>
        if lukGe e.look_up_key probe && e.look_up_key.getUserKey == key then
          match e.look_up_key.getType with
          | 0 => .ok (some (some e.value))
          | 1 => .ok (some none)
          | _ => .error "invalid look_up_key"
        else
          searchScan block probe key off₁ fuel
    else .ok none

/-- `Table::search`: probe with `(key, seq_num, 1)`, binary-search the index
block for the first `max_key >= probe`, read that data block and scan it. -/
def Table.search (t : Table) (key : List Nat) (seqNum : Nat) :
    Except String (Option (Option (List Nat))) :=
  let probe := LookUpKey.new (InternalKey.new key seqNum 1)
  let idx := binarySearchIdx t.index_block probe
  if h : idx < t.index_block.length then
    let ie := t.index_block.get ⟨idx, h⟩
    match readExactAt t.file ie.offset ie.length with
    | .error e => .error e
    | .ok block => searchScan block probe key 0 (block.length + 1)
  else .ok none

/-- The decode loop of `Table::content` over one data block: decode every
entry until the offset reaches the block length. -/
def contentScan (block : List Nat) (off : Nat) :
    Nat → Except String (List (LookUpKey × List Nat))
  | 0 => .error "fuel"
  | fuel + 1 =>
    if off < block.length then
      match DataBlockEntry.decode_from block off with
      | none => .error "decode out of bounds"
      | some (e, off₁) =>
        match contentScan block off₁ fuel with
        | .error msg => .error msg
        | .ok rest => .ok ((e.look_up_key, e.value) :: rest)
    else .ok []

/-- `Table::content` restricted to its file bytes and index block: read each
indexed data block in order and decode all of its entries. -/
def contentHelper (file : List Nat) :
    List IndexBlockEntry → Except String (List (LookUpKey × List Nat))
  | [] => .ok []
  | ie :: rest =>
    match readExactAt file ie.offset ie.length with
    | .error e => .error e
    | .ok block =>
      match contentScan block 0 (block.length + 1) with
      | .error e => .error e
      | .ok entries =>
        match contentHelper file rest with
        | .error e => .error e
        | .ok tail => .ok (entries ++ tail)

/-- `Table::content`: iterate the index block, decoding every data block. -/
def Table.content (t : Table) : Except String (List (LookUpKey × List Nat)) :=
  contentHelper t.file t.index_block

/-! ## Levels (`src/sst.rs`) -/

/-- `Levels`: the per-level ordered table sets (each `BTreeSet` modelled as
a list in its iteration order), plus the configuration snapshot. -/
structure Levels where
  db_path : List Nat
  inner : List (List Table)
  next_file_num : Nat
  block_size : Nat
  l0_compaction_threshold : Nat
  l1_max_bytes : Nat
deriving DecidableEq

/-- The table-eligibility test of `Levels::search`:
`table.min_key <= look_up_key && table.max_key >= look_up_key`. -/
def bracketHit (t : Table) (luk : LookUpKey) : Bool :=
  lukLe t.min_key luk && lukGe t.max_key luk

/-- The level-0 loop of `Levels::search`: probe every eligible table in
level order; a definitive `some` result (value or tombstone) returns it. -/
def searchLevel0 (key : List Nat) (seqNum : Nat) (luk : LookUpKey) :
    List Table → Except String (Option (Option (List Nat)))
  | [] => .ok none
  | t :: rest =>
    if bracketHit t luk then
      match t.search key seqNum with
      | .error e => .error e
      | .ok (some r) => .ok (some r)
      | .ok none => searchLevel0 key seqNum luk rest
    else searchLevel0 key seqNum luk rest

/-- The per-level walk of `Levels::search`; `levelIdx` tracks the
`enumerate` counter (level 0 probes all eligible tables, higher levels at
most the first eligible one). -/
def levelsSearchAux (key : List Nat) (seqNum : Nat) (luk : LookUpKey) :
    Nat → List (List Table) → Except String (Option (List Nat))
  | _, [] => .ok none
  | levelIdx, tables :: rest =>
    if tables.isEmpty then levelsSearchAux key seqNum luk (levelIdx + 1) rest
    else if levelIdx == 0 then
      match searchLevel0 key seqNum luk tables with
      | .error e => .error e
      | .ok (some r) => .ok r
      | .ok none => levelsSearchAux key seqNum luk (levelIdx + 1) rest
    else
      match tables.find? (fun t => bracketHit t luk) with
      | some t =>
        match t.search key seqNum with
        | .error e => .error e
        | .ok (some r) => .ok r
        | .ok none => levelsSearchAux key seqNum luk (levelIdx + 1) rest
      | none => levelsSearchAux key seqNum luk (levelIdx + 1) rest

/-- `Levels::search`: form the probe `(key, seq_num, 1)` and walk the levels
in ascending order; the first definitive hit (value or tombstone) wins. -/
def Levels.search (lv : Levels) (key : List Nat) (seqNum : Nat) :
    Except String (Option (List Nat)) :=
  let luk := LookUpKey.new (InternalKey.new key seqNum 1)
  levelsSearchAux key seqNum luk 0 lv.inner

/-- `std::cmp::min` by look-up key order (first argument wins ties). -/
def rustMinKey (a b : LookUpKey) : LookUpKey :=
  if lukLe a b then a else b

/-- `std::cmp::max` by look-up key order (second argument wins ties). -/
def rustMaxKey (a b : LookUpKey) : LookUpKey :=
  match lukCmp a b with
  | .gt => a
  | _ => b

/-- The destination-level absorption loop of `Levels::background_compaction`
(src/sst.rs lines 230–239): walk the level `L+1` tables and absorb every
table satisfying the source's test
`table.min_key <= key_range.1 || key_range.0 <= table.max_key`, extending
the running range and remembering the last absorbed position.  The same
test is reused verbatim for the alternating level-`L` / level-`L+1`
absorption rounds at lines 253–278. -/
def absorbDstTables (range₀ : LookUpKey × LookUpKey) (dstTables : List Table) :
    (LookUpKey × LookUpKey) × List Table × Option Nat :=
  dstTables.enum.foldl
    (fun acc it =>
      let range := acc.1
      let t := it.2
      if lukLe t.min_key range.2 || lukLe range.1 t.max_key then
        ((rustMinKey t.min_key range.1, rustMaxKey t.max_key range.2),
         acc.2.1 ++ [t], some it.1)
      else acc)
    (range₀, [], none)

/-! ## LSM engine (`src/lsm.rs`) -/

/-- `Config::new`: the compile-time defaults. -/
structure Config where
  block_size : Nat
  l0_compaction_threshold : Nat
  l1_max_bytes : Nat
  max_levels : Nat
  write_buffer_size : Nat

def Config.new : Config :=
  ⟨4 * 1024, 4, 64 * 1024 * 1024, 7, 4 * 1024 * 1024⟩

/-- A generic association-list read, modelling `HashMap::get`. -/
def assocGet {α β : Type} [DecidableEq α] (l : List (α × β)) (k : α) :
    Option β :=
  (l.find? (fun kv => kv.1 == k)).map (·.2)

/-- `HashMap::insert` (replace on duplicate key). -/
def assocInsert {α β : Type} [DecidableEq α] (l : List (α × β)) (k : α)
    (v : β) : List (α × β) :=
  (k, v) :: l.filter (fun kv => kv.1 ≠ k)

/-- `HashMap::remove`. -/
def assocRemove {α β : Type} [DecidableEq α] (l : List (α × β)) (k : α) :
    List (α × β) :=
  l.filter (fun kv => kv.1 ≠ k)

/-- A transaction staging map `(user_key, seq_num) → value_bytes`, in the
iteration order of the model (`HashMap` iteration order is arbitrary in the
source). -/
def TxCache : Type := List ((List Nat × Nat) × List Nat)

instance : DecidableEq TxCache := by
  unfold TxCache
  infer_instance

instance : Inhabited TxCache := ⟨([] : List ((List Nat × Nat) × List Nat))⟩

/-- The engine state.  The compaction channel (bounded capacity 1) is the
`pendingCompaction` slot; the background worker is quiescent in the
no-concurrency setting of the claims, so a sent message simply sits in the
slot. -/
structure LsmDb where
  db_path : List Nat
  mem_table : MemTable
  im_mem_table : Option MemTable
  pendingCompaction : Option (Option MemTable)
  running_compaction : Bool
  levels : Levels
  next_seq_num : Nat
  next_log_num : Nat
  tx_num : Nat
  tx_cache_table : List (Nat × TxCache)
  tx_write_lock : Nat
deriving DecidableEq

/-- `LsmDb::may_compact_mem_table`: first hand a pending immutable memtable
to the compaction channel (guarded by the `running_compaction`
compare-and-swap), then rotate the active memtable if it exceeds the write
buffer and the immutable slot is free. -/
def LsmDb.mayCompactMemTable (st : LsmDb) : LsmDb :=
  let st₁ :=
    if st.im_mem_table.isSome && !st.running_compaction then
      { st with running_compaction := true,
                pendingCompaction := some st.im_mem_table,
                im_mem_table := none }
    else st
  if Config.new.write_buffer_size ≤ st₁.mem_table.size ∧
      st₁.im_mem_table = none then
    { st₁ with
      mem_table := ⟨[], some [], 0⟩,
      im_mem_table := some st₁.mem_table,
      next_log_num := st₁.next_log_num + 1 }
  else st₁

/-- `LsmDb::insert`: allocate a sequence number, write through the
memtable, then maybe rotate/flush. -/
def LsmDb.insert (st : LsmDb) (key value : List Nat) : Option LsmDb :=
  let seq := st.next_seq_num
  (st.mem_table.insert key value seq false).map
    (fun mt =>
      LsmDb.mayCompactMemTable
        { st with mem_table := mt, next_seq_num := seq + 1 })

/-- `LsmDb::delete`. -/
def LsmDb.delete (st : LsmDb) (key : List Nat) : Option LsmDb :=
  let seq := st.next_seq_num
  (st.mem_table.delete key seq false).map
    (fun mt =>
      LsmDb.mayCompactMemTable
        { st with mem_table := mt, next_seq_num := seq + 1 })

/-- `LsmDb::search`: snapshot at `version` (default `next_seq_num - 1`),
then active memtable → immutable memtable → levels, first definitive answer
wins. -/
def LsmDb.search (st : LsmDb) (key : List Nat) (version : Option Nat) :
    Except String (Option (List Nat)) :=
  let seqNum :=
    match version with
    | some s => s
    | none => st.next_seq_num - 1
  match st.mem_table.search key seqNum with
  | some r => .ok r
  | none =>
    match st.im_mem_table.bind (fun t => t.search key seqNum) with
    | some r => .ok r
    | none => st.levels.search key seqNum

/-- `LsmDb::get_tx_write_lock`: re-entrant for the holder; otherwise a
compare-and-swap from 0.  A lock held by another transaction makes the
source spin; in this sequential model that is a stuck state (`none`). -/
def LsmDb.getTxWriteLock (st : LsmDb) (txId : Nat) : Option LsmDb :=
  if st.tx_write_lock = txId then some st
  else if st.tx_write_lock = 0 then some { st with tx_write_lock := txId }
  else none

/-- `LsmDb::free_tx_write_lock`: compare-and-swap `tx_id → 0`. -/
def LsmDb.freeTxWriteLock (st : LsmDb) (txId : Nat) : LsmDb :=
  if st.tx_write_lock = txId then { st with tx_write_lock := 0 } else st

/-- `LsmDb::tx_begin`: allocate a transaction id and a sequence number and
install an empty staging map. -/
def LsmDb.txBegin (st : LsmDb) : Nat × Nat × LsmDb :=
  let txId := st.tx_num
  let seq := st.next_seq_num
  (txId, seq,
   { st with tx_num := txId + 1,
             next_seq_num := seq + 1,
             tx_cache_table := assocInsert st.tx_cache_table txId [] })

/-- `LsmDb::tx_insert`: take the transaction writer lock, then stage
`(key, seq_num) → value`; a missing staging map is a source `unwrap`
panic. -/
def LsmDb.txInsert (st : LsmDb) (txId seqNum : Nat) (key value : List Nat) :
    Option LsmDb :=
  (st.getTxWriteLock txId).bind (fun st₁ =>
    (assocGet st₁.tx_cache_table txId).map (fun cache =>
      let cache₁ := assocInsert cache (key, seqNum) value
      { st₁ with tx_cache_table := assocInsert st₁.tx_cache_table txId cache₁ }))

/-- `LsmDb::tx_delete`: stage an empty value. -/
def LsmDb.txDelete (st : LsmDb) (txId seqNum : Nat) (key : List Nat) :
    Option LsmDb :=
  (st.getTxWriteLock txId).bind (fun st₁ =>
    (assocGet st₁.tx_cache_table txId).map (fun cache =>
      let cache₁ := assocInsert cache (key, seqNum) []
      { st₁ with tx_cache_table := assocInsert st₁.tx_cache_table txId cache₁ }))

/-- `LsmDb::tx_search`: the staged value if present, otherwise the engine
search at the transaction snapshot; a missing staging map is a panic
(`none`). -/
def LsmDb.txSearch (st : LsmDb) (txId seqNum : Nat) (key : List Nat) :
    Option (Except String (Option (List Nat))) :=
  (assocGet st.tx_cache_table txId).map (fun cache =>
    match assocGet cache (key, seqNum) with
    | some v => .ok (some v)
    | none => st.search key (some seqNum))

/-- `LsmDb::tx_update`: take the lock, `tx_search`, and stage `f v` if a
value was found; a panic inside the search propagates. -/
def LsmDb.txUpdate (st : LsmDb) (txId seqNum : Nat) (key : List Nat)
    (f : List Nat → List Nat) : Option LsmDb :=
  (st.getTxWriteLock txId).bind (fun st₁ =>
    match st₁.txSearch txId seqNum key with
    | none => none
    | some (.error _) => none
    | some (.ok none) => some st₁
    | some (.ok (some v)) => st₁.txInsert txId seqNum key (f v))

/-- `LsmDb::tx_commit`: remove the staging map (missing → panic), derive
the transaction sequence number from the first staged key (empty staging →
index panic), bracket the staged writes between type-4 and type-5 WAL
markers, and release the writer lock. -/
def LsmDb.txCommit (st : LsmDb) (txId : Nat) : Option LsmDb :=
  match assocGet st.tx_cache_table txId with
  | none => none
  | some txs =>
    let st₁ := { st with tx_cache_table := assocRemove st.tx_cache_table txId }
    match txs with
    | [] => none
    | ((_, seqNum), _) :: _ =>
      (st₁.mem_table.beginTx seqNum).bind (fun mt₀ =>
        (txs.foldlM (fun (acc : MemTable) (kv : (List Nat × Nat) × List Nat) =>
            if kv.2.isEmpty then acc.delete kv.1.1 kv.1.2 true
            else acc.insert kv.1.1 kv.2 kv.1.2 true) mt₀).bind (fun mt₁ =>
          (mt₁.commitTx seqNum).map (fun mt₂ =>
            LsmDb.freeTxWriteLock { st₁ with mem_table := mt₂ } txId)))

/-- `LsmDb::tx_abort`: drop the staging map and release the writer lock;
nothing is written to the WAL, memtables or levels. -/
def LsmDb.txAbort (st : LsmDb) (txId : Nat) : LsmDb :=
  LsmDb.freeTxWriteLock
    { st with tx_cache_table := assocRemove st.tx_cache_table txId } txId

/-! ## Specification-side definitions and concrete instances used by the
claim theorems -/

/-- Modelled from the spec (§4.3 `search`): the first entry in map order
with `user_key = key` and `seq_num' ≤ seq_num`; `some (some value)` for a
put/tx-put (op type 0/2), `some none` for a delete/tx-delete (op type 1/3),
`none` when no such entry exists. -/
def memSearchSpec (mt : MemTable) (key : List Nat) (seqNum : Nat) :
    Option (Option (List Nat)) :=
  (mt.inner.find? (fun kv =>
      kv.1.user_key == key && decide (kv.1.seqOf ≤ seqNum))).map
    (fun kv => if kv.1.getType == 0 || kv.1.getType == 2
               then some kv.2 else none)

/-- The serialized bytes of a run of data-block entries. -/
def encConcat (es : List (LookUpKey × List Nat)) : List Nat :=
  (es.map (fun e => DataBlockEntry.encode_to ⟨e.1, e.2⟩)).flatten

/-- One step of the block-closing discipline of the builder, on entries
instead of bytes: extend the pending block, and close it exactly when its
serialized size first exceeds `block_size`. -/
def closedBlocksStep (bs : Nat)
    (acc : List (LookUpKey × List Nat) × List (LookUpKey × List Nat))
    (kv : LookUpKey × List Nat) :
    List (LookUpKey × List Nat) × List (LookUpKey × List Nat) :=
  let pend := acc.2 ++ [kv]
  if (encConcat pend).length > bs then (acc.1 ++ pend, []) else (acc.1, pend)

/-- The entries of the closed (emitted) blocks and of the trailing pending
block after the whole stream has been processed. -/
def closedBlocks (data : List (LookUpKey × List Nat)) (bs : Nat) :
    List (LookUpKey × List Nat) × List (LookUpKey × List Nat) :=
  data.foldl (closedBlocksStep bs) ([], [])

/-- Well-formedness of a stream entry: the stored `key_len` is the real
internal-key length and every length/tail fits in a `u64` (always true of
keys built by `LookUpKey::new` on in-range data). -/
def WFEntry (kv : LookUpKey × List Nat) : Prop :=
  kv.1.key_len = kv.1.internal_key.user_key.length + 8 ∧
  kv.1.key_len < 2 ^ 64 ∧
  kv.1.internal_key.tail < 2 ^ 64 ∧
  kv.2.length < 2 ^ 64

instance (kv : LookUpKey × List Nat) : Decidable (WFEntry kv) := by
  unfold WFEntry
  infer_instance

/-- A staged transaction operation, for quantifying over arbitrary staging
sequences. -/
inductive TxOp where
  | ins (seqNum : Nat) (key value : List Nat)
  | del (seqNum : Nat) (key : List Nat)
  | upd (seqNum : Nat) (key : List Nat) (f : List Nat → List Nat)

/-- Apply one staged operation through the public transaction API. -/
def applyTxOp (txId : Nat) (st : LsmDb) : TxOp → Option LsmDb
  | .ins s k v => st.txInsert txId s k v
  | .del s k => st.txDelete txId s k
  | .upd s k f => st.txUpdate txId s k f

/-- Apply a whole sequence of staged operations. -/
def applyTxOps (txId : Nat) (st : LsmDb) (ops : List TxOp) : Option LsmDb :=
  ops.foldlM (applyTxOp txId) st

/-- A fresh memtable with an attached (empty) WAL writer. -/
def freshMemTable : MemTable := ⟨[], some [], 0⟩

/-- Empty level sets for the default seven levels. -/
def emptyLevels : Levels := ⟨[], [[], [], [], [], [], [], []], 1, 4096, 4, 67108864⟩

/-- A freshly opened database over an empty directory: this is the state
`LsmDb::new` produces before any write. -/
def freshDb : LsmDb :=
  ⟨[], freshMemTable, none, none, false, emptyLevels, 1, 1, 1, [], 0⟩

/-- C2/C3/C5/C8 concrete single-entry streams. -/
def c2Data : List (LookUpKey × List Nat) :=
  [(LookUpKey.new (InternalKey.new [97] 1 0), [120])]

/-- The table built from `c2Data` at block size 1 (every entry closes its
block, so nothing is dropped). -/
def c2SmallTable : Table := (Table.new [] c2Data 0 1).getD default

/-- A stream whose only entry carries op type 2 (tx-put), as produced by
flushing a committed transaction. -/
def c3Data : List (LookUpKey × List Nat) :=
  [(LookUpKey.new (InternalKey.new [97] 1 2), [120])]

/-- The WAL of a single committed transaction: begin marker, one tx-put of
key `[97]` at sequence number 5, commit marker. -/
def c4Log : List LogEntry :=
  [⟨4, [], [], 5⟩, ⟨2, [97], [120], 5⟩, ⟨5, [], [], 5⟩]

/-- C5 seed range: user keys `"a"` to `"b"`. -/
def c5SeedRange : LookUpKey × LookUpKey :=
  (LookUpKey.new (InternalKey.new [97] 1 0),
   LookUpKey.new (InternalKey.new [98] 1 0))

/-- C5 destination-level table covering user keys `"x"` to `"y"` — far
outside the seed range. -/
def c5FarTable : Table :=
  (Table.new [] [(LookUpKey.new (InternalKey.new [120] 1 0), [1]),
                 (LookUpKey.new (InternalKey.new [121] 1 0), [2])] 1 1).getD
    default

/-- C8 state: a database whose only data is the level-0 table holding
`([97], seq 1) ↦ [120]`; the memtable is empty and the next sequence number
is 2 — exactly the state after `insert([97], [120])` on a fresh database
followed by a flush of the rotated memtable. -/
def c8St : LsmDb :=
  ⟨[], freshMemTable, none, none, false,
   ⟨[], [[c2SmallTable], [], [], [], [], [], []], 2, 4096, 4, 67108864⟩,
   2, 2, 1, [], 0⟩

/-- C8 witness staging sequence: one staged put. -/
def c8WitnessOps : List TxOp := [.ins 2 [99] [7]]

/-- The state after staging `c8WitnessOps` inside the transaction begun on
`c8St`. -/
def c8WitnessSt : LsmDb :=
  (applyTxOps (c8St.txBegin).1 (c8St.txBegin).2.2 c8WitnessOps).getD c8St

/-- C9 witness intermediate states on a fresh database: after staging the
empty-value insert, and after commit. -/
def c9St₂ : LsmDb :=
  (LsmDb.txInsert (freshDb.txBegin).2.2 (freshDb.txBegin).1
    (freshDb.txBegin).2.1 [97] []).getD freshDb

def c9St₃ : LsmDb := (c9St₂.txCommit (freshDb.txBegin).1).getD freshDb

/-- C1 witness state: fresh database after `insert([97], [120])`. -/
def c1St : LsmDb := (freshDb.insert [97] [120]).getD freshDb

/-- C10 witness state: a database holding one empty staging map under
transaction id 1. -/
def c10St : LsmDb :=
  ⟨[], freshMemTable, none, none, false, emptyLevels, 2, 1, 2, [(1, [])], 0⟩

/-- C6 witness memtable: a newer put and an older tombstone for `[97]`. -/
def c6Mt : MemTable :=
  ⟨[(InternalKey.new [97] 3 0, [5]), (InternalKey.new [97] 1 1, [])], none, 0⟩

/-- Equality of the data-bearing engine components: active memtable (with
its WAL), immutable memtable, levels, and the in-flight compaction slot. -/
def CoreEq (a b : LsmDb) : Prop :=
  a.mem_table = b.mem_table ∧ a.im_mem_table = b.im_mem_table ∧
  a.levels = b.levels ∧ a.pendingCompaction = b.pendingCompaction

/-! # Supporting lemmas and claim theorems -/

theorem natLeBytes_length (k n : Nat) : (natLeBytes k n).length = k := by
  induction k generalizing n with
  | zero => rfl
  | succ k ih => simp [natLeBytes, ih]

theorem u64ToLeBytes_length (n : Nat) : (u64ToLeBytes n).length = 8 :=
  natLeBytes_length 8 n

theorem natLeBytes_lt (k n : Nat) : ∀ b ∈ natLeBytes k n, b < 256 := by
  induction k generalizing n with
  | zero => intro b hb; simp [natLeBytes] at hb
  | succ k ih =>
    intro b hb
    simp only [natLeBytes, List.mem_cons] at hb
    rcases hb with h | h
    · omega
    · exact ih (n / 256) b h

theorem toU64_natLeBytes (k n : Nat) : toU64 (natLeBytes k n) = n % 256 ^ k := by
  induction k generalizing n with
  | zero => simp [natLeBytes, toU64, Nat.mod_one]
  | succ k ih =>
    simp only [natLeBytes, toU64, List.foldr_cons]
    have hrec : toU64 (natLeBytes k (n / 256)) = n / 256 % 256 ^ k := ih (n / 256)
    simp only [toU64] at hrec
    rw [hrec, pow_succ']
    rw [Nat.mod_mul]

theorem toU64_u64ToLeBytes (n : Nat) : toU64 (u64ToLeBytes n) = n % 2 ^ 64 := by
  have h := toU64_natLeBytes 8 n
  have : (256 : Nat) ^ 8 = 2 ^ 64 := by norm_num
  rw [u64ToLeBytes, h, this]

theorem toU64_u64ToLeBytes_of_lt {n : Nat} (h : n < 2 ^ 64) :
    toU64 (u64ToLeBytes n) = n := by
  rw [toU64_u64ToLeBytes, Nat.mod_eq_of_lt h]

theorem bytesCmp_self (l : List Nat) : bytesCmp l l = .eq := by
  induction l with
  | nil => rfl
  | cons a as ih => simp [bytesCmp, Nat.compare_eq_eq.mpr rfl, ih]

theorem bytesCmp_eq_iff (a b : List Nat) : bytesCmp a b = .eq ↔ a = b := by
  induction a generalizing b with
  | nil => cases b <;> simp [bytesCmp]
  | cons x xs ih =>
    cases b with
    | nil => simp [bytesCmp]
    | cons y ys =>
      simp only [bytesCmp]
      cases h : compare x y with
      | eq =>
        have hxy : x = y := Nat.compare_eq_eq.mp h
        subst hxy
        simp [ih]
      | lt =>
        have hxy : x ≠ y := by
          intro hc; subst hc
          rw [Nat.compare_eq_eq.mpr rfl] at h; exact absurd h (by simp)
        simp only [reduceCtorEq, false_iff]
        intro hc
        exact hxy (by injection hc)
      | gt =>
        have hxy : x ≠ y := by
          intro hc; subst hc
          rw [Nat.compare_eq_eq.mpr rfl] at h; exact absurd h (by simp)
        simp only [reduceCtorEq, false_iff]
        intro hc
        exact hxy (by injection hc)

theorem seqOf_new (u : List Nat) (s o : Nat) :
    (InternalKey.new u s o).seqOf = s % 2 ^ 56 := by
  unfold InternalKey.new InternalKey.seqOf
  simp only
  omega

theorem getType_new (u : List Nat) (s o : Nat) :
    (InternalKey.new u s o).getType = o % 256 := by
  unfold InternalKey.new InternalKey.getType
  simp only
  omega

theorem user_key_new (u : List Nat) (s o : Nat) :
    (InternalKey.new u s o).user_key = u := rfl

theorem ikCmp_eq_iff (a b : InternalKey) :
    ikCmp a b = .eq ↔ a.user_key = b.user_key ∧ a.seqOf = b.seqOf := by
  unfold ikCmp InternalKey.seqOf
  cases h : bytesCmp a.user_key b.user_key with
  | eq =>
    have := (bytesCmp_eq_iff a.user_key b.user_key).mp h
    simp only [this, true_and]
    split
    · simp only [reduceCtorEq, false_iff]; omega
    · split
      · simp only [true_iff]; omega
      · simp only [reduceCtorEq, false_iff]; omega
  | lt =>
    have hne : a.user_key ≠ b.user_key := by
      intro hc; rw [hc, bytesCmp_self] at h; exact absurd h (by simp)
    simp [hne]
  | gt =>
    have hne : a.user_key ≠ b.user_key := by
      intro hc; rw [hc, bytesCmp_self] at h; exact absurd h (by simp)
    simp [hne]

theorem ikCmp_eq_lt_iff (a b : InternalKey) :
    ikCmp a b = .lt ↔
      bytesCmp a.user_key b.user_key = .lt ∨
      (a.user_key = b.user_key ∧ b.seqOf < a.seqOf) := by
  unfold ikCmp InternalKey.seqOf
  cases h : bytesCmp a.user_key b.user_key with
  | eq =>
    have := (bytesCmp_eq_iff a.user_key b.user_key).mp h
    simp only [this, reduceCtorEq, false_or, true_and]
    split
    · simp only [true_iff]; omega
    · split <;> (simp only [reduceCtorEq, false_iff]; omega)
  | lt =>
    have hne : a.user_key ≠ b.user_key := by
      intro hc; rw [hc, bytesCmp_self] at h; exact absurd h (by simp)
    simp [hne]
  | gt =>
    have hne : a.user_key ≠ b.user_key := by
      intro hc; rw [hc, bytesCmp_self] at h; exact absurd h (by simp)
    simp [hne]

theorem ikCmp_eq_gt_iff (a b : InternalKey) :
    ikCmp a b = .gt ↔
      bytesCmp a.user_key b.user_key = .gt ∨
      (a.user_key = b.user_key ∧ a.seqOf < b.seqOf) := by
  unfold ikCmp InternalKey.seqOf
  cases h : bytesCmp a.user_key b.user_key with
  | eq =>
    have := (bytesCmp_eq_iff a.user_key b.user_key).mp h
    simp only [this, reduceCtorEq, false_or, true_and]
    split
    · simp only [reduceCtorEq, false_iff]; omega
    · split <;> (first
        | (simp only [reduceCtorEq, false_iff]; omega)
        | (simp only [true_iff]; omega))
  | lt =>
    have hne : a.user_key ≠ b.user_key := by
      intro hc; rw [hc, bytesCmp_self] at h; exact absurd h (by simp)
    simp [hne]
  | gt =>
    have hne : a.user_key ≠ b.user_key := by
      intro hc; rw [hc, bytesCmp_self] at h; exact absurd h (by simp)
    simp [hne]

theorem ikBeq_eq_true_iff (a b : InternalKey) :
    ikBeq a b = true ↔ a.user_key = b.user_key ∧ a.seqOf = b.seqOf := by
  unfold ikBeq InternalKey.seqOf
  simp [Bool.and_eq_true]

/-- C7 — Internal key order and equality: comparison is user-key
lexicographic ascending with, on equal user keys, the larger sequence
number (`tail >> 8`) comparing smaller; equality holds exactly on equal
user key and sequence number; the op type byte participates in neither, so
two keys built with the same user key and sequence number but different op
types are both equal under `PartialEq` and equivalent under `Ord`. -/
theorem internal_key_order_spec :
    (∀ a b : InternalKey,
      (ikCmp a b = .lt ↔
        bytesCmp a.user_key b.user_key = .lt ∨
        (a.user_key = b.user_key ∧ b.seqOf < a.seqOf)) ∧
      (ikCmp a b = .gt ↔
        bytesCmp a.user_key b.user_key = .gt ∨
        (a.user_key = b.user_key ∧ a.seqOf < b.seqOf)) ∧
      (ikCmp a b = .eq ↔ a.user_key = b.user_key ∧ a.seqOf = b.seqOf) ∧
      (ikBeq a b = true ↔ a.user_key = b.user_key ∧ a.seqOf = b.seqOf)) ∧
    (∀ (u : List Nat) (s o₁ o₂ : Nat),
      ikBeq (InternalKey.new u s o₁) (InternalKey.new u s o₂) = true ∧
      ikCmp (InternalKey.new u s o₁) (InternalKey.new u s o₂) = .eq) := by
  constructor
  · intro a b
    exact ⟨ikCmp_eq_lt_iff a b, ikCmp_eq_gt_iff a b, ikCmp_eq_iff a b,
           ikBeq_eq_true_iff a b⟩
  · intro u s o₁ o₂
    constructor
    · rw [ikBeq_eq_true_iff]
      exact ⟨rfl, by rw [seqOf_new, seqOf_new]⟩
    · rw [ikCmp_eq_iff]
      exact ⟨rfl, by rw [seqOf_new, seqOf_new]⟩

/-- C6 — Memtable search semantics: for any memtable state and any snapshot
sequence number representable in the 56-bit field, `MemTable::search`
returns exactly the first entry in map order with the probed user key and
`seq_num' ≤ seq_num`, mapped to `some (some value)` for op types 0/2 and
`some none` otherwise, and `none` when no entry qualifies. -/
theorem memtable_search_spec (mt : MemTable) (key : List Nat) (seqNum : Nat)
    (h : seqNum < 2 ^ 56) :
    mt.search key seqNum = memSearchSpec mt key seqNum := by
  unfold MemTable.search memSearchSpec
  have hpred : (fun (kv : InternalKey × List Nat) =>
      ikGe kv.1 (InternalKey.new key seqNum 1) && kv.1.user_key == key) =
      (fun kv => kv.1.user_key == key && decide (kv.1.seqOf ≤ seqNum)) := by
    funext kv
    by_cases hu : kv.1.user_key = key
    · have hge : ikGe kv.1 (InternalKey.new key seqNum 1) =
          decide (kv.1.seqOf ≤ seqNum) := by
        unfold ikGe
        cases hcmp : ikCmp kv.1 (InternalKey.new key seqNum 1) with
        | lt =>
          rw [ikCmp_eq_lt_iff] at hcmp
          rcases hcmp with hlt | ⟨_, hs⟩
          · rw [user_key_new, hu, bytesCmp_self] at hlt
            exact absurd hlt (by simp)
          · rw [seqOf_new, Nat.mod_eq_of_lt h] at hs
            simp only []
            symm
            simp only [decide_eq_false_iff_not]
            omega
        | eq =>
          rw [ikCmp_eq_iff, user_key_new, seqOf_new, Nat.mod_eq_of_lt h]
            at hcmp
          simp only []
          symm
          simp only [decide_eq_true_eq]
          omega
        | gt =>
          rw [ikCmp_eq_gt_iff] at hcmp
          rcases hcmp with hgt | ⟨_, hs⟩
          · rw [user_key_new, hu, bytesCmp_self] at hgt
            exact absurd hgt (by simp)
          · rw [seqOf_new, Nat.mod_eq_of_lt h] at hs
            simp only []
            symm
            simp only [decide_eq_true_eq]
            omega
      rw [hge]
      have hbe : (kv.1.user_key == key) = true := by simp [hu]
      rw [hbe, Bool.and_true, Bool.true_and]
    · have hbe : (kv.1.user_key == key) = false := by simp [hu]
      rw [hbe, Bool.and_false, Bool.false_and]
  simp only [hpred]

/-- Witness for C6 at a concrete memtable and snapshot. -/
theorem memtable_search_spec_witness :
    (2 : Nat) < 2 ^ 56 ∧
    c6Mt.search [97] 2 = memSearchSpec c6Mt [97] 2 :=
  ⟨by norm_num, memtable_search_spec c6Mt [97] 2 (by norm_num)⟩

theorem assocGet_assocInsert_self {α β : Type} [DecidableEq α]
    (l : List (α × β)) (k : α) (v : β) :
    assocGet (assocInsert l k v) k = some v := by
  unfold assocGet assocInsert
  rw [List.find?_cons_of_pos _ (by simp)]
  rfl

theorem assocGet_assocRemove_self {α β : Type} [DecidableEq α]
    (l : List (α × β)) (k : α) :
    assocGet (assocRemove l k) k = none := by
  unfold assocGet assocRemove
  induction l with
  | nil => rfl
  | cons kv rest ih =>
    by_cases h : kv.1 = k
    · have hd : (decide (kv.1 ≠ k)) = false := by simp [h]
      rw [List.filter_cons, hd]
      simp only [Bool.false_eq_true, if_false]
      exact ih
    · have hd : (decide (kv.1 ≠ k)) = true := by simp [h]
      rw [List.filter_cons, hd]
      simp only [if_true]
      rw [List.find?_cons_of_neg _ (by simp [h])]
      exact ih

/-- C10 — Committing a transaction whose staging map is empty panics when
the source indexes `txs.keys()[0]` to derive the sequence number; the model
returns `none` (panic) instead of committing or returning normally. -/
theorem tx_commit_empty_staging_panics (st : LsmDb) (txId : Nat)
    (h : assocGet st.tx_cache_table txId = some []) :
    st.txCommit txId = none := by
  unfold LsmDb.txCommit
  rw [h]

/-- Witness for C10: a state holding an empty staging map for id 1, as
produced by `tx_begin` immediately followed by `tx_commit`. -/
theorem tx_commit_empty_staging_panics_witness :
    assocGet c10St.tx_cache_table 1 = some [] ∧
    c10St.txCommit 1 = none :=
  ⟨rfl, tx_commit_empty_staging_panics c10St 1 rfl⟩

set_option maxRecDepth 10000 in
/-- C3 — Table point-lookup result mapping (code bug): on a data-block
entry whose op type is 2 (a tx-put, as flushed from a committed
transaction), `Table::search` runs into `panic!("invalid look_up_key")`
instead of returning `Some(Some(value))`; op type 0 is mapped correctly for
comparison. -/
theorem table_search_op_type_2_panics :
    (Table.new [] c3Data 0 1).map (fun t => t.search [97] 1) =
      some (.error "invalid look_up_key") ∧
    (Table.new [] c2Data 0 1).map (fun t => t.search [97] 1) =
      some (.ok (some (some [120]))) := by
  constructor <;> decide

/-- C4 — Recovery sequence counter (code bug): replaying a WAL holding only
a committed transaction at sequence number 5 installs the transaction's
entries in the memtable but returns 0 as the maximum sequence number,
although the maximum `seq_num` over all replayed records is 5. -/
theorem recover_ignores_tx_seq_nums :
    (MemTable.recover ⟨[], none, 0⟩ c4Log []).map (fun r => r.2.2) =
      some 0 ∧
    (MemTable.recover ⟨[], none, 0⟩ c4Log []).map (fun r => r.1.inner) =
      some [(InternalKey.new [97] 5 2, [120])] ∧
    c4Log.foldl (fun a e => max a e.seq_num) 0 = 5 := by
  refine ⟨rfl, ?_, rfl⟩
  set_option maxRecDepth 4000 in decide

/-- C5 — Compaction absorption condition (code bug): with the seed range
`["a", "b"]`, the destination-level table covering `["x", "y"]` is absorbed
into the input set by the source's test
`min_key <= range.max || range.min <= max_key`, although it does not
geometrically overlap the running range
(`min_key <= range.max && range.min <= max_key` fails). -/
theorem compaction_absorbs_without_overlap :
    (absorbDstTables c5SeedRange [c5FarTable]).2.1 = [c5FarTable] ∧
    ¬(lukLe c5FarTable.min_key c5SeedRange.2 = true ∧
      lukLe c5SeedRange.1 c5FarTable.max_key = true) := by
  constructor
  · rfl
  · intro hc
    exact absurd hc.1 (by decide)

theorem coreEq_refl (a : LsmDb) : CoreEq a a := ⟨rfl, rfl, rfl, rfl⟩

theorem coreEq_trans {a b c : LsmDb} (h₁ : CoreEq a b) (h₂ : CoreEq b c) :
    CoreEq a c :=
  ⟨h₁.1.trans h₂.1, h₁.2.1.trans h₂.2.1, h₁.2.2.1.trans h₂.2.2.1,
   h₁.2.2.2.trans h₂.2.2.2⟩

theorem getTxWriteLock_coreEq {st st₁ : LsmDb} {txId : Nat}
    (h : st.getTxWriteLock txId = some st₁) : CoreEq st₁ st := by
  unfold LsmDb.getTxWriteLock at h
  split at h
  · cases h; exact coreEq_refl _
  · split at h
    · cases h; exact ⟨rfl, rfl, rfl, rfl⟩
    · cases h

theorem txInsert_coreEq {st st₁ : LsmDb} {txId s : Nat} {k v : List Nat}
    (h : st.txInsert txId s k v = some st₁) : CoreEq st₁ st := by
  unfold LsmDb.txInsert at h
  cases hlock : st.getTxWriteLock txId with
  | none => rw [hlock] at h; cases h
  | some stL =>
    rw [hlock] at h
    dsimp only [Option.bind] at h
    cases hget : assocGet stL.tx_cache_table txId with
    | none => rw [hget] at h; cases h
    | some cache =>
      rw [hget] at h
      dsimp only [Option.map] at h
      cases h
      exact @coreEq_trans _ stL _ ⟨rfl, rfl, rfl, rfl⟩
        (getTxWriteLock_coreEq hlock)

theorem txDelete_coreEq {st st₁ : LsmDb} {txId s : Nat} {k : List Nat}
    (h : st.txDelete txId s k = some st₁) : CoreEq st₁ st := by
  unfold LsmDb.txDelete at h
  cases hlock : st.getTxWriteLock txId with
  | none => rw [hlock] at h; cases h
  | some stL =>
    rw [hlock] at h
    dsimp only [Option.bind] at h
    cases hget : assocGet stL.tx_cache_table txId with
    | none => rw [hget] at h; cases h
    | some cache =>
      rw [hget] at h
      dsimp only [Option.map] at h
      cases h
      exact @coreEq_trans _ stL _ ⟨rfl, rfl, rfl, rfl⟩
        (getTxWriteLock_coreEq hlock)

theorem txUpdate_coreEq {st st₁ : LsmDb} {txId s : Nat} {k : List Nat}
    {f : List Nat → List Nat}
    (h : st.txUpdate txId s k f = some st₁) : CoreEq st₁ st := by
  unfold LsmDb.txUpdate at h
  cases hlock : st.getTxWriteLock txId with
  | none => rw [hlock] at h; cases h
  | some stL =>
    rw [hlock] at h
    dsimp only [Option.bind] at h
    cases hsr : stL.txSearch txId s k with
    | none => rw [hsr] at h; cases h
    | some r =>
      rw [hsr] at h
      cases r with
      | error e => cases h
      | ok ro =>
        cases ro with
        | none =>
          cases h
          exact getTxWriteLock_coreEq hlock
        | some v =>
          exact coreEq_trans (txInsert_coreEq h) (getTxWriteLock_coreEq hlock)

theorem applyTxOp_coreEq {txId : Nat} {st st₁ : LsmDb} {op : TxOp}
    (h : applyTxOp txId st op = some st₁) : CoreEq st₁ st := by
  cases op with
  | ins s k v => exact txInsert_coreEq h
  | del s k => exact txDelete_coreEq h
  | upd s k f => exact txUpdate_coreEq h

theorem applyTxOps_coreEq {txId : Nat} {ops : List TxOp} {st st₁ : LsmDb}
    (h : applyTxOps txId st ops = some st₁) : CoreEq st₁ st := by
  induction ops generalizing st with
  | nil =>
    unfold applyTxOps at h
    simp only [List.foldlM_nil] at h
    cases h
    exact coreEq_refl _
  | cons op rest ih =>
    unfold applyTxOps at h
    simp only [List.foldlM_cons] at h
    cases hop : applyTxOp txId st op with
    | none => rw [hop] at h; cases h
    | some stm =>
      rw [hop] at h
      replace h : List.foldlM (applyTxOp txId) stm rest = some st₁ := h
      exact coreEq_trans (ih h) (applyTxOp_coreEq hop)

theorem txBegin_coreEq (st : LsmDb) : CoreEq (st.txBegin).2.2 st :=
  ⟨rfl, rfl, rfl, rfl⟩

theorem txAbort_coreEq (st : LsmDb) (txId : Nat) :
    CoreEq (st.txAbort txId) st := by
  unfold LsmDb.txAbort LsmDb.freeTxWriteLock
  split <;> exact ⟨rfl, rfl, rfl, rfl⟩

/-- A search at an explicit snapshot depends only on the data-bearing
components. -/
theorem search_some_congr {a b : LsmDb} (h : CoreEq a b) (key : List Nat)
    (s : Nat) : a.search key (some s) = b.search key (some s) := by
  unfold LsmDb.search
  obtain ⟨h₁, h₂, h₃, _⟩ := h
  rw [h₁, h₂, h₃]

set_option maxRecDepth 10000 in
/-- C8 counterexample: on the reachable state `c8St` (one flushed level-0
table holding `([97], seq 1) ↦ [120]`, next sequence number 2), a
transaction that stages nothing and aborts still changes the result of
`search([97], None)` from `Some [120]` to `None`: `tx_begin` advanced the
sequence counter, and the level bracket test
`min_key <= look_up_key` then excludes the table because its `min_key`
carries the probed user key at a smaller sequence number. -/
theorem tx_abort_search_counterexample :
    LsmDb.search (LsmDb.txAbort (c8St.txBegin).2.2 (c8St.txBegin).1)
        [97] none ≠
      LsmDb.search c8St [97] none := by
  have h₁ : LsmDb.search (LsmDb.txAbort (c8St.txBegin).2.2 (c8St.txBegin).1)
      [97] none = .ok none := by decide
  have h₂ : LsmDb.search c8St [97] none = .ok (some [120]) := by decide
  rw [h₁, h₂]
  simp

/-- C8 (amended) — Abort leaves no trace in the data path: for every
transaction begun with `tx_begin` and any sequence of staged
`tx_insert`/`tx_delete`/`tx_update` operations, `tx_abort` leaves the
active memtable (including its WAL), the immutable memtable, the levels and
the in-flight compaction slot exactly as before the transaction began,
removes the staging map, and every search with an explicit snapshot version
returns the same result as before.  (A `search(key, None)` may differ, as
`tx_begin` advances the sequence counter — see the counterexample.) -/
theorem tx_abort_frame (st : LsmDb) (ops : List TxOp) (st₂ : LsmDb)
    (h : applyTxOps (st.txBegin).1 (st.txBegin).2.2 ops = some st₂) :
    (LsmDb.txAbort st₂ (st.txBegin).1).mem_table = st.mem_table ∧
    (LsmDb.txAbort st₂ (st.txBegin).1).im_mem_table = st.im_mem_table ∧
    (LsmDb.txAbort st₂ (st.txBegin).1).levels = st.levels ∧
    (LsmDb.txAbort st₂ (st.txBegin).1).pendingCompaction =
      st.pendingCompaction ∧
    assocGet (LsmDb.txAbort st₂ (st.txBegin).1).tx_cache_table
      (st.txBegin).1 = none ∧
    ∀ (key : List Nat) (s : Nat),
      (LsmDb.txAbort st₂ (st.txBegin).1).search key (some s) =
        st.search key (some s) := by
  have hcore : CoreEq (LsmDb.txAbort st₂ (st.txBegin).1) st :=
    coreEq_trans (txAbort_coreEq st₂ (st.txBegin).1)
      (coreEq_trans (applyTxOps_coreEq h) (txBegin_coreEq st))
  refine ⟨hcore.1, hcore.2.1, hcore.2.2.1, hcore.2.2.2, ?_, ?_⟩
  · show assocGet
      (LsmDb.freeTxWriteLock
        { st₂ with tx_cache_table :=
            assocRemove st₂.tx_cache_table (st.txBegin).1 }
        (st.txBegin).1).tx_cache_table (st.txBegin).1 = none
    unfold LsmDb.freeTxWriteLock
    split <;> exact assocGet_assocRemove_self _ _
  · intro key s
    exact search_some_congr hcore key s

set_option maxRecDepth 10000 in
/-- Witness for C8 (amended) at the concrete state `c8St` with one staged
put. -/
theorem tx_abort_frame_witness :
    applyTxOps (c8St.txBegin).1 (c8St.txBegin).2.2 c8WitnessOps =
      some c8WitnessSt ∧
    ((LsmDb.txAbort c8WitnessSt (c8St.txBegin).1).mem_table =
        c8St.mem_table ∧
      (LsmDb.txAbort c8WitnessSt (c8St.txBegin).1).im_mem_table =
        c8St.im_mem_table ∧
      (LsmDb.txAbort c8WitnessSt (c8St.txBegin).1).levels = c8St.levels ∧
      (LsmDb.txAbort c8WitnessSt (c8St.txBegin).1).pendingCompaction =
        c8St.pendingCompaction ∧
      assocGet (LsmDb.txAbort c8WitnessSt (c8St.txBegin).1).tx_cache_table
        (c8St.txBegin).1 = none ∧
      ∀ (key : List Nat) (s : Nat),
        (LsmDb.txAbort c8WitnessSt (c8St.txBegin).1).search key (some s) =
          c8St.search key (some s)) :=
  ⟨by decide, tx_abort_frame c8St c8WitnessOps c8WitnessSt (by decide)⟩

theorem find_skipInsert (inner : List (InternalKey × List Nat))
    (key : List Nat) (n o : Nat) (v : List Nat) (hn : n < 2 ^ 56)
    (hseq : ∀ kv ∈ inner, InternalKey.seqOf kv.1 < n) :
    (skipInsert inner (InternalKey.new key n o) v).find?
        (fun kv =>
          ikGe kv.1 (InternalKey.new key n 1) && kv.1.user_key == key) =
      some (InternalKey.new key n o, v) := by
  have hp : (ikGe (InternalKey.new key n o) (InternalKey.new key n 1) &&
      (InternalKey.new key n o).user_key == key) = true := by
    have hcmp : ikCmp (InternalKey.new key n o) (InternalKey.new key n 1) =
        .eq :=
      (ikCmp_eq_iff _ _).mpr ⟨rfl, by rw [seqOf_new, seqOf_new]⟩
    unfold ikGe
    rw [hcmp]
    simp [user_key_new]
  induction inner with
  | nil =>
    unfold skipInsert
    simp only [List.find?]
    rw [hp]
  | cons hd rest ih =>
    obtain ⟨k₀, v₀⟩ := hd
    have hs₀ : InternalKey.seqOf k₀ < n := hseq (k₀, v₀) (by simp)
    unfold skipInsert
    cases hcmp : ikCmp (InternalKey.new key n o) k₀ with
    | lt =>
      simp only [List.find?]
      rw [hp]
    | eq =>
      exfalso
      have := ((ikCmp_eq_iff _ _).mp hcmp).2
      rw [seqOf_new, Nat.mod_eq_of_lt hn] at this
      omega
    | gt =>
      simp only [List.find?]
      have hfalse : (ikGe k₀ (InternalKey.new key n 1) &&
          k₀.user_key == key) = false := by
        rcases (ikCmp_eq_gt_iff _ _).mp hcmp with hbg | ⟨_, hlt⟩
        · rw [user_key_new] at hbg
          have hne : k₀.user_key ≠ key := by
            intro hc
            rw [hc, bytesCmp_self] at hbg
            exact absurd hbg (by simp)
          simp [hne]
        · exfalso
          rw [seqOf_new, Nat.mod_eq_of_lt hn] at hlt
          omega
      rw [hfalse]
      exact ih (fun kv hkv => hseq kv (by simp [hkv]))

/-- After installing a fresh internal key `(key, n, o)` into the map, a
search for `key` at snapshot `n` finds exactly that entry (all existing
entries carry strictly smaller sequence numbers). -/
theorem memtable_search_newest (inner : List (InternalKey × List Nat))
    (wl : Option (List LogEntry)) (sz : Nat) (key : List Nat) (n o : Nat)
    (v : List Nat) (hn : n < 2 ^ 56)
    (hseq : ∀ kv ∈ inner, InternalKey.seqOf kv.1 < n) :
    MemTable.search ⟨skipInsert inner (InternalKey.new key n o) v, wl, sz⟩
        key n =
      some (if ((InternalKey.new key n o).getType == 0 ||
              (InternalKey.new key n o).getType == 2) = true
            then some v else none) := by
  unfold MemTable.search
  dsimp only
  rw [find_skipInsert inner key n o v hn hseq]
  rfl

/-- `MemTable::insert_inner` followed by a search for the same key at the
written sequence number yields the value. -/
theorem memtable_search_insert_inner (mt : MemTable) (key value : List Nat)
    (n : Nat) (isTx : Bool) (hn : n < 2 ^ 56)
    (hseq : ∀ kv ∈ mt.inner, InternalKey.seqOf kv.1 < n) :
    (mt.insert_inner key value n isTx).search key n = some (some value) := by
  unfold MemTable.insert_inner
  cases isTx with
  | true =>
    dsimp only
    rw [if_pos rfl]
    rw [memtable_search_newest mt.inner _ _ key n 2 value hn hseq]
    rw [getType_new]
    rfl
  | false =>
    dsimp only
    rw [if_neg (by simp)]
    rw [memtable_search_newest mt.inner _ _ key n 0 value hn hseq]
    rw [getType_new]
    rfl

/-- `MemTable::delete_inner` followed by a search for the same key at the
written sequence number yields the definitive tombstone. -/
theorem memtable_search_delete_inner (mt : MemTable) (key : List Nat)
    (n : Nat) (isTx : Bool) (hn : n < 2 ^ 56)
    (hseq : ∀ kv ∈ mt.inner, InternalKey.seqOf kv.1 < n) :
    (mt.delete_inner key n isTx).search key n = some none := by
  unfold MemTable.delete_inner
  cases isTx with
  | true =>
    dsimp only
    rw [if_pos rfl]
    rw [memtable_search_newest mt.inner _ _ key n 3 [] hn hseq]
    rw [getType_new]
    rfl
  | false =>
    dsimp only
    rw [if_neg (by simp)]
    rw [memtable_search_newest mt.inner _ _ key n 1 [] hn hseq]
    rw [getType_new]
    rfl

/-- A default-version search resolves in the active memtable when the
latter answers definitively. -/
theorem search_none_of_mem_hit (st : LsmDb) (key : List Nat)
    (r : Option (List Nat))
    (h : st.mem_table.search key (st.next_seq_num - 1) = some r) :
    st.search key none = .ok r := by
  unfold LsmDb.search
  dsimp only
  rw [h]

/-- A default-version search falls through an inconclusive active memtable
into a definitive immutable-memtable answer. -/
theorem search_none_of_im_hit (st : LsmDb) (key : List Nat)
    (r : Option (List Nat))
    (hmem : st.mem_table.search key (st.next_seq_num - 1) = none)
    (him : st.im_mem_table.bind
        (fun t => t.search key (st.next_seq_num - 1)) = some r) :
    st.search key none = .ok r := by
  unfold LsmDb.search
  dsimp only
  rw [hmem, him]

/-- `may_compact_mem_table` either keeps the active memtable or rotates it
into the immutable slot; the sequence counter is untouched. -/
theorem mayCompact_cases (st : LsmDb) :
    (st.mayCompactMemTable.mem_table = st.mem_table ∧
      st.mayCompactMemTable.next_seq_num = st.next_seq_num) ∨
    (st.mayCompactMemTable.mem_table = ⟨[], some [], 0⟩ ∧
      st.mayCompactMemTable.im_mem_table = some st.mem_table ∧
      st.mayCompactMemTable.next_seq_num = st.next_seq_num) := by
  unfold LsmDb.mayCompactMemTable
  dsimp only
  split
  · split
    · exact Or.inr ⟨rfl, rfl, rfl⟩
    · exact Or.inl ⟨rfl, rfl⟩
  · split
    · exact Or.inr ⟨rfl, rfl, rfl⟩
    · exact Or.inl ⟨rfl, rfl⟩

/-- C1 — Read-your-writes: in any state whose memtable entries all carry
sequence numbers below the counter (true of every reachable state), after
`insert(key, value)` completes, `search(key, None)` returns
`Some value`. -/
theorem insert_read_your_writes (st st' : LsmDb) (key value : List Nat)
    (hseq : ∀ kv ∈ st.mem_table.inner,
      InternalKey.seqOf kv.1 < st.next_seq_num)
    (hn : st.next_seq_num < 2 ^ 56)
    (h : st.insert key value = some st') :
    st'.search key none = .ok (some value) := by
  unfold LsmDb.insert MemTable.insert MemTable.writeLog at h
  cases hw : st.mem_table.writerLog with
  | none => rw [hw] at h; cases h
  | some w =>
    rw [hw] at h
    dsimp only [Option.map] at h
    cases h
    rcases mayCompact_cases
        { st with
          mem_table :=
            MemTable.insert_inner
              ⟨st.mem_table.inner,
               some (w ++ [⟨if false = true then 2 else 0, key, value,
                 st.next_seq_num⟩]),
               st.mem_table.size⟩ key value st.next_seq_num false,
          next_seq_num := st.next_seq_num + 1 }
      with ⟨hm, hs⟩ | ⟨hm, him, hs⟩
    · apply search_none_of_mem_hit
      rw [hm, hs]
      dsimp only
      rw [Nat.add_sub_cancel]
      exact memtable_search_insert_inner _ key value st.next_seq_num false
        hn hseq
    · apply search_none_of_im_hit
      · rw [hm, hs]
        dsimp only
        rfl
      · rw [him, hs]
        dsimp only [Option.bind]
        rw [Nat.add_sub_cancel]
        exact memtable_search_insert_inner _ key value st.next_seq_num false
          hn hseq

/-- Witness for C1 on a fresh database. -/
theorem insert_read_your_writes_witness :
    (∀ kv ∈ freshDb.mem_table.inner,
      InternalKey.seqOf kv.1 < freshDb.next_seq_num) ∧
    freshDb.next_seq_num < 2 ^ 56 ∧
    freshDb.insert [97] [120] = some c1St ∧
    c1St.search [97] none = .ok (some [120]) :=
  ⟨fun kv hkv => absurd hkv (by simp [freshDb, freshMemTable]),
   by decide,
   by decide,
   insert_read_your_writes freshDb c1St [97] [120]
     (fun kv hkv => absurd hkv (by simp [freshDb, freshMemTable]))
     (by decide) (by decide)⟩

/-- `tx_commit` of a staging map holding exactly one empty-value entry:
a type-4 marker, a tx-delete of the key, and a type-5 marker are appended
to the WAL, and the tombstone `(key, n, 3)` is installed in the map. -/
theorem txCommit_single_empty (st₂ : LsmDb) (txId : Nat) (key : List Nat)
    (n : Nat) (w : List LogEntry)
    (hget : assocGet st₂.tx_cache_table txId = some [((key, n), [])])
    (hw : st₂.mem_table.writerLog = some w) :
    st₂.txCommit txId = some (LsmDb.freeTxWriteLock
      { st₂ with
        tx_cache_table := assocRemove st₂.tx_cache_table txId,
        mem_table :=
          ⟨skipInsert st₂.mem_table.inner (InternalKey.new key n 3) [],
           some (((w ++ [⟨4, [], [], n⟩]) ++ [⟨3, key, [], n⟩]) ++
             [⟨5, [], [], n⟩]),
           st₂.mem_table.size + 8 + key.length⟩ } txId) := by
  simp only [LsmDb.txCommit, hget]
  simp only [MemTable.beginTx, MemTable.writeLog, hw]
  simp only [Option.bind, List.foldlM_cons, List.foldlM_nil]
  simp only [List.isEmpty, MemTable.delete, MemTable.writeLog, Option.map]
  simp only [MemTable.delete_inner, if_pos]
  simp only [MemTable.commitTx, MemTable.writeLog, Option.map]
  rfl

/-- C9 — Empty value commits as tombstone: staging `tx_insert(key, b"")`
inside a transaction and committing it makes `search(key, None)` return
`None` (the commit path turns the empty value into `MemTable::delete`,
installing a definitive tombstone). -/
theorem tx_empty_value_commit_hides (st st₂ st₃ : LsmDb) (key : List Nat)
    (hseq : ∀ kv ∈ st.mem_table.inner,
      InternalKey.seqOf kv.1 < st.next_seq_num)
    (hn : st.next_seq_num < 2 ^ 56)
    (h₁ : LsmDb.txInsert (st.txBegin).2.2 (st.txBegin).1 (st.txBegin).2.1
      key [] = some st₂)
    (h₂ : LsmDb.txCommit st₂ (st.txBegin).1 = some st₃) :
    st₃.search key none = .ok none := by
  have hfacts : st₂.mem_table = st.mem_table ∧
      st₂.next_seq_num = st.next_seq_num + 1 ∧
      assocGet st₂.tx_cache_table st.tx_num =
        some [((key, st.next_seq_num), [])] := by
    unfold LsmDb.txBegin LsmDb.txInsert LsmDb.getTxWriteLock at h₁
    dsimp only at h₁
    split at h₁
    · dsimp only [Option.bind] at h₁
      rw [assocGet_assocInsert_self] at h₁
      dsimp only [Option.map] at h₁
      cases h₁
      exact ⟨rfl, rfl, assocGet_assocInsert_self _ _ _⟩
    · split at h₁
      · dsimp only [Option.bind] at h₁
        rw [assocGet_assocInsert_self] at h₁
        dsimp only [Option.map] at h₁
        cases h₁
        exact ⟨rfl, rfl, assocGet_assocInsert_self _ _ _⟩
      · cases h₁
  obtain ⟨hmem2, hseq2, hget2⟩ := hfacts
  cases hw : st.mem_table.writerLog with
  | none =>
    exfalso
    have hw₂ : st₂.mem_table.writerLog = none := by rw [hmem2, hw]
    have hb1 : (st.txBegin).1 = st.tx_num := rfl
    rw [hb1] at h₂
    simp only [LsmDb.txCommit, hget2] at h₂
    simp only [MemTable.beginTx, MemTable.writeLog, hw₂, Option.bind] at h₂
    cases h₂
  | some w =>
    have hb1 : (st.txBegin).1 = st.tx_num := rfl
    rw [hb1] at h₂
    rw [txCommit_single_empty st₂ st.tx_num key st.next_seq_num w hget2
      (by rw [hmem2, hw])] at h₂
    cases h₂
    unfold LsmDb.freeTxWriteLock
    split
    · apply search_none_of_mem_hit
      dsimp only
      rw [hmem2, hseq2, Nat.add_sub_cancel]
      rw [memtable_search_newest st.mem_table.inner _ _ key
        st.next_seq_num 3 [] hn hseq]
      rw [getType_new]
      rfl
    · apply search_none_of_mem_hit
      dsimp only
      rw [hmem2, hseq2, Nat.add_sub_cancel]
      rw [memtable_search_newest st.mem_table.inner _ _ key
        st.next_seq_num 3 [] hn hseq]
      rw [getType_new]
      rfl

/-- Witness for C9 on a fresh database. -/
theorem tx_empty_value_commit_hides_witness :
    (∀ kv ∈ freshDb.mem_table.inner,
      InternalKey.seqOf kv.1 < freshDb.next_seq_num) ∧
    freshDb.next_seq_num < 2 ^ 56 ∧
    LsmDb.txInsert (freshDb.txBegin).2.2 (freshDb.txBegin).1
      (freshDb.txBegin).2.1 [97] [] = some c9St₂ ∧
    LsmDb.txCommit c9St₂ (freshDb.txBegin).1 = some c9St₃ ∧
    c9St₃.search [97] none = .ok none :=
  ⟨fun kv hkv => absurd hkv (by simp [freshDb, freshMemTable]),
   by decide, by decide, by decide,
   tx_empty_value_commit_hides freshDb c9St₂ c9St₃ [97]
     (fun kv hkv => absurd hkv (by simp [freshDb, freshMemTable]))
     (by decide) (by decide) (by decide)⟩

theorem sliceAt_exact (pre mid post : List Nat) :
    ((pre ++ (mid ++ post)).drop pre.length).take mid.length = mid := by
  rw [List.drop_left]
  exact List.take_left mid post

theorem encode_to_decomp (kv : LookUpKey × List Nat) :
    DataBlockEntry.encode_to ⟨kv.1, kv.2⟩ =
      u64ToLeBytes kv.1.key_len ++
      ((kv.1.internal_key.user_key ++
        u64ToLeBytes kv.1.internal_key.tail) ++
       (u64ToLeBytes kv.2.length ++ kv.2)) := by
  unfold DataBlockEntry.encode_to LookUpKey.encode_to InternalKey.encode_to
  simp [List.append_assoc]

theorem encode_to_length (kv : LookUpKey × List Nat) (h : WFEntry kv) :
    (DataBlockEntry.encode_to ⟨kv.1, kv.2⟩).length =
      16 + kv.1.key_len + kv.2.length := by
  rw [encode_to_decomp]
  simp only [List.length_append, u64ToLeBytes_length]
  rw [h.1]
  omega

theorem decode_from_encode (kv : LookUpKey × List Nat) (hwf : WFEntry kv)
    (front rest : List Nat) :
    DataBlockEntry.decode_from
        (front ++ (DataBlockEntry.encode_to ⟨kv.1, kv.2⟩ ++ rest))
        front.length =
      some (⟨kv.1, kv.2⟩,
        front.length + (DataBlockEntry.encode_to ⟨kv.1, kv.2⟩).length) := by
  obtain ⟨hkl, hkl64, htail, hv64⟩ := hwf
  set A := u64ToLeBytes kv.1.key_len with hA
  set B := kv.1.internal_key.user_key ++ u64ToLeBytes kv.1.internal_key.tail
    with hB
  set C := u64ToLeBytes kv.2.length with hC
  set bytes := front ++ (DataBlockEntry.encode_to ⟨kv.1, kv.2⟩ ++ rest)
    with hbytes
  have hAlen : A.length = 8 := u64ToLeBytes_length _
  have hBlen : B.length = kv.1.key_len := by
    rw [hB]
    simp only [List.length_append, u64ToLeBytes_length]
    omega
  have hClen : C.length = 8 := u64ToLeBytes_length _
  have hencdec : DataBlockEntry.encode_to ⟨kv.1, kv.2⟩ =
      A ++ (B ++ (C ++ kv.2)) := by
    rw [encode_to_decomp]
  have henclen : (DataBlockEntry.encode_to ⟨kv.1, kv.2⟩).length =
      16 + kv.1.key_len + kv.2.length :=
    encode_to_length kv ⟨hkl, hkl64, htail, hv64⟩
  have hbytes₂ : bytes = front ++ (A ++ (B ++ (C ++ (kv.2 ++ rest)))) := by
    rw [hbytes, hencdec]
    simp [List.append_assoc]
  have hblen : bytes.length =
      front.length + 16 + kv.1.key_len + kv.2.length + rest.length := by
    rw [hbytes₂]
    simp only [List.length_append, hAlen, hBlen, hClen]
    omega
  have hslice1 : (bytes.drop front.length).take 8 = A := by
    rw [hbytes₂, ← hAlen]
    exact sliceAt_exact front A _
  have hkeyLen : toU64 ((bytes.drop front.length).take 8) = kv.1.key_len := by
    rw [hslice1, hA]
    exact toU64_u64ToLeBytes_of_lt hkl64
  have hbytes₃ : bytes = (front ++ A) ++ (B ++ (C ++ (kv.2 ++ rest))) := by
    rw [hbytes₂]
    simp [List.append_assoc]
  have hslice2 : (bytes.drop (front.length + 8)).take kv.1.key_len = B := by
    rw [hbytes₃, ← hBlen]
    have hfa : front.length + 8 = (front ++ A).length := by
      simp [List.length_append, hAlen]
    rw [hfa]
    exact sliceAt_exact (front ++ A) B _
  have hikdec : InternalKey.decode_from B = some kv.1.internal_key := by
    unfold InternalKey.decode_from
    rw [if_neg (by omega)]
    have hub : B.length - 8 = kv.1.internal_key.user_key.length := by
      rw [hBlen, hkl]
      omega
    rw [hub, hB, List.take_left, List.drop_left,
      toU64_u64ToLeBytes_of_lt htail]
  have hbytes₄ : bytes = ((front ++ A) ++ B) ++ (C ++ (kv.2 ++ rest)) := by
    rw [hbytes₂]
    simp [List.append_assoc]
  have hpre₂len : ((front ++ A) ++ B).length =
      front.length + 8 + kv.1.key_len := by
    simp only [List.length_append, hAlen, hBlen]
  have hslice3 : (bytes.drop (front.length + 8 + kv.1.key_len)).take 8 =
      C := by
    rw [hbytes₄, ← hpre₂len, ← hClen]
    exact sliceAt_exact ((front ++ A) ++ B) C _
  have hvlen : toU64 ((bytes.drop (front.length + 8 + kv.1.key_len)).take 8)
      = kv.2.length := by
    rw [hslice3, hC]
    exact toU64_u64ToLeBytes_of_lt hv64
  have hbytes₅ : bytes = (((front ++ A) ++ B) ++ C) ++ (kv.2 ++ rest) := by
    rw [hbytes₂]
    simp [List.append_assoc]
  have hpre₃len : (((front ++ A) ++ B) ++ C).length =
      front.length + 8 + kv.1.key_len + 8 := by
    simp only [List.length_append, hAlen, hBlen, hClen]
  have hslice4 : (bytes.drop (front.length + 8 + kv.1.key_len + 8)).take
      kv.2.length = kv.2 := by
    rw [hbytes₅, ← hpre₃len]
    exact sliceAt_exact (((front ++ A) ++ B) ++ C) kv.2 rest
  unfold DataBlockEntry.decode_from LookUpKey.decode_from_bytes
  rw [if_pos (by omega)]
  simp only [hkeyLen]
  rw [if_pos (by omega)]
  rw [hslice2, hikdec]
  simp only []
  rw [if_pos (by omega)]
  simp only [hvlen]
  rw [if_pos (by omega)]
  rw [hslice4]
  have hoff : front.length + 8 + kv.1.key_len + 8 + kv.2.length =
      front.length + (DataBlockEntry.encode_to ⟨kv.1, kv.2⟩).length := by
    rw [henclen]
    omega
  rw [hoff]

theorem encConcat_cons (kv : LookUpKey × List Nat)
    (l : List (LookUpKey × List Nat)) :
    encConcat (kv :: l) =
      DataBlockEntry.encode_to ⟨kv.1, kv.2⟩ ++ encConcat l := by
  unfold encConcat
  simp

theorem encConcat_append (l₁ l₂ : List (LookUpKey × List Nat)) :
    encConcat (l₁ ++ l₂) = encConcat l₁ ++ encConcat l₂ := by
  unfold encConcat
  simp

theorem encode_to_len_pos (x : DataBlockEntry) :
    0 < (DataBlockEntry.encode_to x).length := by
  unfold DataBlockEntry.encode_to LookUpKey.encode_to
  simp only [List.length_append, u64ToLeBytes_length]
  omega

theorem length_le_encConcat (es : List (LookUpKey × List Nat)) :
    es.length ≤ (encConcat es).length := by
  induction es with
  | nil => simp [encConcat]
  | cons kv l ih =>
    rw [encConcat_cons]
    simp only [List.length_append, List.length_cons]
    have := encode_to_len_pos ⟨kv.1, kv.2⟩
    omega

theorem contentScan_encConcat (es : List (LookUpKey × List Nat)) :
    ∀ (front : List Nat) (fuel : Nat),
      (∀ kv ∈ es, WFEntry kv) → es.length < fuel →
      contentScan (front ++ encConcat es) front.length fuel = .ok es := by
  induction es with
  | nil =>
    intro front fuel _ hfuel
    cases fuel with
    | zero => omega
    | succ f =>
      unfold contentScan
      rw [if_neg (by simp [encConcat])]
  | cons kv es ih =>
    intro front fuel hwf hfuel
    cases fuel with
    | zero => omega
    | succ f =>
      unfold contentScan
      have hlt : front.length < (front ++ encConcat (kv :: es)).length := by
        rw [encConcat_cons]
        simp only [List.length_append]
        have := encode_to_len_pos ⟨kv.1, kv.2⟩
        omega
      rw [if_pos hlt]
      rw [encConcat_cons]
      rw [decode_from_encode kv (hwf kv (by simp)) front (encConcat es)]
      have hrec : contentScan
          (front ++ (DataBlockEntry.encode_to ⟨kv.1, kv.2⟩ ++ encConcat es))
          (front.length + (DataBlockEntry.encode_to ⟨kv.1, kv.2⟩).length) f =
          .ok es := by
        have h₂ := ih (front ++ DataBlockEntry.encode_to ⟨kv.1, kv.2⟩) f
          (fun x hx => hwf x (by simp [hx]))
          (by simp only [List.length_cons] at hfuel; omega)
        rw [List.append_assoc, List.length_append] at h₂
        exact h₂
      simp only [hrec]

theorem contentHelper_append (file : List Nat)
    (i₁ i₂ : List IndexBlockEntry) :
    contentHelper file (i₁ ++ i₂) =
      match contentHelper file i₁ with
      | .error e => .error e
      | .ok a =>
        match contentHelper file i₂ with
        | .error e => .error e
        | .ok b => .ok (a ++ b) := by
  induction i₁ with
  | nil =>
    simp only [List.nil_append]
    cases h : contentHelper file i₂ with
    | error e => rfl
    | ok b => rfl
  | cons ie rest ih =>
    simp only [List.cons_append]
    cases hre : readExactAt file ie.offset ie.length with
    | error e => simp only [contentHelper, hre]
    | ok block =>
      cases hcs : contentScan block 0 (block.length + 1) with
      | error e => simp only [contentHelper, hre, hcs]
      | ok entries =>
        simp only [contentHelper, hre, hcs, ih]
        cases hcr : contentHelper file rest with
        | error e => rfl
        | ok a =>
          cases hc2 : contentHelper file i₂ with
          | error e => rfl
          | ok b => simp

theorem build_loop_invariant (bs : Nat) :
    ∀ (data : List (LookUpKey × List Nat)) (st : BuildSt)
      (em pend : List (LookUpKey × List Nat)),
      (∀ kv ∈ data, WFEntry kv) → (∀ kv ∈ pend, WFEntry kv) →
      st.dataBlock = encConcat pend →
      (∀ ie ∈ st.index, ie.offset + ie.length ≤ st.buf.length) →
      (∀ rest, contentHelper (st.buf ++ rest) st.index = .ok em) →
      ((∀ kv ∈ (data.foldl (closedBlocksStep bs) (em, pend)).2, WFEntry kv) ∧
       (data.foldl (buildStep bs) st).dataBlock =
         encConcat (data.foldl (closedBlocksStep bs) (em, pend)).2 ∧
       (∀ ie ∈ (data.foldl (buildStep bs) st).index,
         ie.offset + ie.length ≤ (data.foldl (buildStep bs) st).buf.length) ∧
       (∀ rest, contentHelper ((data.foldl (buildStep bs) st).buf ++ rest)
           (data.foldl (buildStep bs) st).index =
         .ok (data.foldl (closedBlocksStep bs) (em, pend)).1)) := by
  intro data
  induction data with
  | nil =>
    intro st em pend _ hpendwf hdb hbound hcontent
    exact ⟨hpendwf, hdb, hbound, hcontent⟩
  | cons kv data ih =>
    intro st em pend hdatawf hpendwf hdb hbound hcontent
    simp only [List.foldl_cons]
    have hkvwf : WFEntry kv := hdatawf kv (by simp)
    have hdb' : st.dataBlock ++ DataBlockEntry.encode_to ⟨kv.1, kv.2⟩ =
        encConcat (pend ++ [kv]) := by
      rw [encConcat_append, ← hdb]
      have : encConcat [kv] = DataBlockEntry.encode_to ⟨kv.1, kv.2⟩ := by
        simp [encConcat]
      rw [this]
    have hcondeq :
        (bs < (st.dataBlock ++ DataBlockEntry.encode_to ⟨kv.1, kv.2⟩).length)
          = (bs < (encConcat (pend ++ [kv])).length) := by
      rw [hdb']
    by_cases hover :
        bs < (st.dataBlock ++ DataBlockEntry.encode_to ⟨kv.1, kv.2⟩).length
    · have hspec : bs < (encConcat (pend ++ [kv])).length := by
        rw [← hcondeq]; exact hover
      have hbs : buildStep bs st kv =
          ⟨st.buf ++ (st.dataBlock ++ DataBlockEntry.encode_to ⟨kv.1, kv.2⟩),
           st.index ++ [⟨kv.1, st.buf.length,
             (st.dataBlock ++
               DataBlockEntry.encode_to ⟨kv.1, kv.2⟩).length⟩],
           [], max kv.1.getSeqNum st.lastSeqNum⟩ := by
        unfold buildStep
        rw [if_pos hover]
      have hcs : closedBlocksStep bs (em, pend) kv =
          (em ++ (pend ++ [kv]), []) := by
        unfold closedBlocksStep
        rw [if_pos hspec]
      rw [hbs, hcs]
      apply ih
      · exact fun x hx => hdatawf x (by simp [hx])
      · intro x hx
        exact absurd hx (by simp)
      · rfl
      · intro ie hie
        simp only [List.mem_append, List.mem_singleton] at hie
        rcases hie with hie | hie
        · have := hbound ie hie
          simp only [List.length_append]
          omega
        · subst hie
          simp only [List.length_append]
          omega
      · intro rest
        rw [contentHelper_append]
        have h₁ : contentHelper
            ((st.buf ++ (st.dataBlock ++
              DataBlockEntry.encode_to ⟨kv.1, kv.2⟩)) ++ rest) st.index =
            .ok em := by
          rw [List.append_assoc]
          exact hcontent _
        rw [h₁]
        have hread : readExactAt
            ((st.buf ++ (st.dataBlock ++
              DataBlockEntry.encode_to ⟨kv.1, kv.2⟩)) ++ rest)
            st.buf.length
            (st.dataBlock ++ DataBlockEntry.encode_to ⟨kv.1, kv.2⟩).length =
            .ok (st.dataBlock ++ DataBlockEntry.encode_to ⟨kv.1, kv.2⟩) := by
          unfold readExactAt
          rw [if_pos (by simp only [List.length_append]; omega)]
          rw [List.append_assoc]
          rw [sliceAt_exact st.buf _ rest]
        have hwfP : ∀ x ∈ pend ++ [kv], WFEntry x := by
          intro x hx
          simp only [List.mem_append, List.mem_singleton] at hx
          rcases hx with hx | hx
          · exact hpendwf x hx
          · subst hx; exact hkvwf
        have hscan : contentScan
            (st.dataBlock ++ DataBlockEntry.encode_to ⟨kv.1, kv.2⟩) 0
            ((st.dataBlock ++
              DataBlockEntry.encode_to ⟨kv.1, kv.2⟩).length + 1) =
            .ok (pend ++ [kv]) := by
          rw [hdb']
          have := contentScan_encConcat (pend ++ [kv]) [] 
            ((encConcat (pend ++ [kv])).length + 1) hwfP
            (by have := length_le_encConcat (pend ++ [kv]); omega)
          simpa using this
        simp only [contentHelper, hread, hscan]
        simp
    · have hspec : ¬ bs < (encConcat (pend ++ [kv])).length := by
        rw [← hcondeq]; exact hover
      have hbs : buildStep bs st kv =
          { st with
            dataBlock :=
              st.dataBlock ++ DataBlockEntry.encode_to ⟨kv.1, kv.2⟩,
            lastSeqNum := max kv.1.getSeqNum st.lastSeqNum } := by
        unfold buildStep
        rw [if_neg hover]
      have hcs : closedBlocksStep bs (em, pend) kv = (em, pend ++ [kv]) := by
        unfold closedBlocksStep
        rw [if_neg hspec]
      rw [hbs, hcs]
      apply ih
      · exact fun x hx => hdatawf x (by simp [hx])
      · intro x hx
        simp only [List.mem_append, List.mem_singleton] at hx
        rcases hx with hx | hx
        · exact hpendwf x hx
        · subst hx; exact hkvwf
      · exact hdb'
      · exact hbound
      · exact hcontent

theorem closedBlocks_flatten (bs : Nat) :
    ∀ (data em pend : List (LookUpKey × List Nat)),
      (data.foldl (closedBlocksStep bs) (em, pend)).1 ++
        (data.foldl (closedBlocksStep bs) (em, pend)).2 =
      em ++ pend ++ data := by
  intro data
  induction data with
  | nil => intro em pend; simp
  | cons kv data ih =>
    intro em pend
    simp only [List.foldl_cons]
    by_cases h : bs < (encConcat (pend ++ [kv])).length
    · have hstep : closedBlocksStep bs (em, pend) kv =
          (em ++ (pend ++ [kv]), []) := by
        unfold closedBlocksStep
        rw [if_pos h]
      rw [hstep, ih]
      simp
    · have hstep : closedBlocksStep bs (em, pend) kv =
          (em, pend ++ [kv]) := by
        unfold closedBlocksStep
        rw [if_neg h]
      rw [hstep, ih]
      simp

/-- C2 (amended) — SST build/content: the table built from a stream `S`
yields, via `content()`, exactly the entries of the *closed* blocks — the
prefix of `S` up to the last entry whose serialization pushed the running
data block over `block_size`; a trailing partial block is dropped (it never
receives an index entry).  In particular `content()` returns all of `S`
exactly when the last entry closed its block. -/
theorem sst_content_closed_blocks (fname : List Nat)
    (data : List (LookUpKey × List Nat)) (level bs : Nat) (t : Table)
    (hne : data ≠ [])
    (hsorted : data.Chain' (fun a b => lukLe a.1 b.1 = true))
    (hwf : ∀ kv ∈ data, WFEntry kv)
    (h : Table.new fname data level bs = some t) :
    t.content = .ok (closedBlocks data bs).1 ∧
    (closedBlocks data bs).1 ++ (closedBlocks data bs).2 = data := by
  constructor
  · unfold Table.new at h
    cases hh : data.head? with
    | none => rw [hh] at h; cases h
    | some first =>
      rw [hh] at h
      cases hl : data.getLast? with
      | none => rw [hl] at h; cases h
      | some last =>
        rw [hl] at h
        dsimp only at h
        cases h
        unfold Table.content
        obtain ⟨_, _, _, hcontent⟩ :=
          build_loop_invariant bs data ⟨[], [], [], 0⟩ [] [] hwf
            (fun x hx => absurd hx (List.not_mem_nil x)) rfl
            (fun ie hie => absurd hie (List.not_mem_nil ie))
            (fun _ => rfl)
        dsimp only
        simp only [List.append_assoc]
        exact hcontent _
  · have := closedBlocks_flatten bs data [] []
    simpa [closedBlocks] using this

set_option maxRecDepth 10000 in
/-- C2 counterexample: a single-entry sorted well-formed stream built at
the default 4 KiB block size never overflows a block, so no index entry is
emitted and `content()` returns the empty sequence, not the stream. -/
theorem sst_roundtrip_counterexample :
    c2Data ≠ [] ∧
    c2Data.Chain' (fun a b => lukLe a.1 b.1 = true) ∧
    (∀ kv ∈ c2Data, WFEntry kv) ∧
    (Table.new [] c2Data 0 4096).map (fun t => t.content) =
      some (.ok []) ∧
    (Except.ok ([] : List (LookUpKey × List Nat)) : Except String _) ≠
      .ok c2Data := by
  refine ⟨by decide, by simp [c2Data], by decide, by decide, by decide⟩

set_option maxRecDepth 10000 in
/-- Witness for C2 (amended) at block size 1, where every entry closes its
block and `content()` equals the whole stream. -/
theorem sst_content_closed_blocks_witness :
    c2Data ≠ [] ∧
    c2Data.Chain' (fun a b => lukLe a.1 b.1 = true) ∧
    (∀ kv ∈ c2Data, WFEntry kv) ∧
    Table.new [] c2Data 0 1 = some c2SmallTable ∧
    (c2SmallTable.content = .ok (closedBlocks c2Data 1).1 ∧
     (closedBlocks c2Data 1).1 ++ (closedBlocks c2Data 1).2 = c2Data) :=
  ⟨by decide, by simp [c2Data], by decide, by decide,
   sst_content_closed_blocks [] c2Data 0 1 c2SmallTable (by decide)
     (by simp [c2Data]) (by decide) (by decide)⟩

end DraftKV
